import Mathlib

/-!
Verification of the goar integrity layer: chunker, Merkle tree builder,
proof generator/validator, deep hash, data-item codec and bundle codec.

The Go source is shallowly embedded: byte slices become `List Nat`
(each entry the value of one byte), Go `int` arithmetic that can wrap is
modelled as two's-complement 64-bit arithmetic over `Int`, and the
external SHA-256 / SHA-384 primitives are parameters of the development
(every structural theorem below holds for an arbitrary hash function of
the right output length, which is exactly how the code uses them).
Fallible Go functions return `Except`; a Go runtime panic (out-of-range
slice expression) is modelled by the distinguished error `GoErr.panic`,
using the standard `cap = len` semantics of freshly built byte slices.
Base64url encoding is a bijection between byte slices and their encoded
strings; fields that the Go code carries base64url-encoded are modelled
directly by their underlying byte lists.
-/

namespace Goar

/-- A Go-style error: either an `errors.New`-style message or a runtime
panic (out-of-range slice expression). -/
inductive GoErr where
  | panic : GoErr
  | err : String → GoErr
  deriving DecidableEq, Repr

/-- Two's-complement wrap of an integer into the 64-bit signed range,
modelling overflow of Go's `int` arithmetic. -/
def wrap64 (x : Int) : Int :=
  (x + 2 ^ 63) % 2 ^ 64 - 2 ^ 63

/-- `transaction/utils.go`, `intToByteArray`, unrolled from the end of
the loop: the Go loop fills a 32-byte array from index 31 down to 0 with
`n % 256` and then replaces `n` by `(n - n%256)/256 = n/256`; `aux n k`
produces the last `k` bytes of that array. All call sites pass
non-negative cursors, so `n` is modelled as `Nat`. -/
def intToByteArrayAux : Nat → Nat → List Nat
  | _, 0 => []
  | n, k + 1 => intToByteArrayAux (n / 256) k ++ [n % 256]

/-- `transaction/utils.go`, `intToByteArray`: 32-byte big-endian
encoding of a non-negative machine integer. -/
def intToByteArray (n : Nat) : List Nat :=
  intToByteArrayAux n 32

/-- `transaction/utils.go`, `byteArrayToInt`: big-endian fold
`value = value*256 + b[i]` over the bytes, in Go's wrapping `int`
arithmetic. -/
def byteArrayToInt (b : List Nat) : Int :=
  b.foldl (fun (value : Int) (byt : Nat) => wrap64 (value * 256 + (byt : Int))) 0

theorem intToByteArrayAux_length (n k : Nat) :
    (intToByteArrayAux n k).length = k := by
  induction k generalizing n with
  | zero => rfl
  | succ k ih => simp [intToByteArrayAux, ih]

theorem intToByteArray_length (n : Nat) : (intToByteArray n).length = 32 :=
  intToByteArrayAux_length n 32

theorem wrap64_eq_self {x : Int} (h0 : 0 ≤ x) (h : x < 2 ^ 63) :
    wrap64 x = x := by
  unfold wrap64
  omega

theorem intToByteArrayAux_eq_map (k n : Nat) :
    intToByteArrayAux n k =
      (List.range k).map (fun i => n / 256 ^ (k - 1 - i) % 256) := by
  induction k generalizing n with
  | zero => rfl
  | succ k ih =>
    rw [intToByteArrayAux, ih, List.range_succ, List.map_append]
    congr 1
    · apply List.map_congr_left
      intro i hi
      rw [List.mem_range] at hi
      have he : k + 1 - 1 - i = k - 1 - i + 1 := by omega
      rw [he, Nat.div_div_eq_div_mul, ← pow_succ']
    · simp

/-- Splitting off the least-significant byte of `n % 256 ^ (k+1)`. -/
theorem mod_pow_succ_split (n k : Nat) :
    n % 256 ^ (k + 1) = 256 * (n / 256 % 256 ^ k) + n % 256 := by
  have h1 : 256 * (n % 256 ^ (k + 1) / 256) + n % 256 ^ (k + 1) % 256 =
      n % 256 ^ (k + 1) := Nat.div_add_mod _ 256
  have h2 : n % 256 ^ (k + 1) / 256 = n / 256 % 256 ^ k := by
    rw [pow_succ']
    exact Nat.mod_mul_right_div_self n 256 (256 ^ k)
  have h3 : n % 256 ^ (k + 1) % 256 = n % 256 := by
    apply Nat.mod_mod_of_dvd
    exact ⟨256 ^ k, (pow_succ' 256 k)⟩
  omega

theorem byteArrayToInt_aux (k : Nat) :
    ∀ (n v : Nat), v * 256 ^ k + n % 256 ^ k < 2 ^ 63 →
      (intToByteArrayAux n k).foldl
          (fun (value : Int) (byt : Nat) => wrap64 (value * 256 + (byt : Int))) (v : Int) =
        ((v * 256 ^ k + n % 256 ^ k : Nat) : Int) := by
  induction k with
  | zero =>
    intro n v _
    simp [intToByteArrayAux]
  | succ k ih =>
    intro n v h
    rw [intToByteArrayAux, List.foldl_append]
    have hsplit := mod_pow_succ_split n k
    have hpow : (256 : Nat) ^ (k + 1) = 256 * 256 ^ k := pow_succ' 256 k
    have hv : v * 256 ^ (k + 1) = 256 * (v * 256 ^ k) := by
      rw [hpow]; ring
    rw [hsplit, hv] at h
    have hlt : v * 256 ^ k + n / 256 % 256 ^ k < 2 ^ 63 := by
      generalize v * 256 ^ k = q at h ⊢
      generalize n / 256 % 256 ^ k = s at h ⊢
      omega
    rw [ih (n / 256) v hlt]
    rw [List.foldl_cons, List.foldl_nil]
    rw [hsplit, hv]
    have hcast : ((v * 256 ^ k + n / 256 % 256 ^ k : Nat) : Int) * 256 +
        ((n % 256 : Nat) : Int) =
        ((256 * (v * 256 ^ k) + (256 * (n / 256 % 256 ^ k) + n % 256) : Nat) : Int) := by
      push_cast
      ring
    rw [hcast]
    apply wrap64_eq_self
    · exact Int.natCast_nonneg _
    · generalize hq : 256 * (v * 256 ^ k) + (256 * (n / 256 % 256 ^ k) + n % 256) = w at h ⊢
      omega

/-- The claim C10: for every non-negative machine integer `n`,
`intToByteArray n` is exactly 32 bytes, holds `n` big-endian (byte `i`
is `n / 256 ^ (31 - i) % 256`, most significant first), and
`byteArrayToInt (intToByteArray n) = n`. -/
theorem intToByteArray_roundtrip (n : Nat) (h : n < 2 ^ 63) :
    (intToByteArray n).length = 32 ∧
    intToByteArray n = (List.range 32).map (fun i => n / 256 ^ (31 - i) % 256) ∧
    byteArrayToInt (intToByteArray n) = n := by
  refine ⟨intToByteArray_length n, ?_, ?_⟩
  · have := intToByteArrayAux_eq_map 32 n
    simpa [intToByteArray] using this
  · have hm : n % 256 ^ 32 = n := by
      apply Nat.mod_eq_of_lt
      calc n < 2 ^ 63 := h
        _ ≤ 256 ^ 32 := by norm_num
    have h32 : 0 * 256 ^ 32 + n % 256 ^ 32 < 2 ^ 63 := by
      rw [hm]
      omega
    have h2 := byteArrayToInt_aux 32 n 0 h32
    rw [hm] at h2
    have h3 : 0 * 256 ^ 32 + n = n := by
      omega
    rw [h3] at h2
    exact h2

/-- Witness for C10 at `n = 7`. -/
theorem intToByteArray_roundtrip_witness :
    (intToByteArray 7).length = 32 ∧
    intToByteArray 7 = (List.range 32).map (fun i => 7 / 256 ^ (31 - i) % 256) ∧
    byteArrayToInt (intToByteArray 7) = 7 :=
  intToByteArray_roundtrip 7 (by norm_num)

/-! ## Chunker (`transaction/merkle.go`, `chunkData`) -/

/-- `transaction/merkle.go`, constant `MAX_CHUNK_SIZE` (256 KiB). -/
def MAX_CHUNK_SIZE : Nat := 256 * 1024

/-- `transaction/merkle.go`, constant `MIN_CHUNK_SIZE` (32 KiB). -/
def MIN_CHUNK_SIZE : Nat := 32 * 1024

/-- `transaction/merkle.go`, struct `Chunk`. -/
structure Chunk where
  dataHash : List Nat
  minByteRange : Nat
  maxByteRange : Nat
  deriving DecidableEq, Repr

/-- The `chunkSize` computed by one iteration of the loop in `chunkData`
for a remaining buffer of `byteLength ≥ MAX_CHUNK_SIZE` bytes: 256 KiB,
except that when taking 256 KiB would leave a remainder strictly between
0 and 32 KiB the remaining buffer is split at `ceil(byteLength/2)`
(`math.Ceil(float64(byteLength)/2)`, exact here because in that branch
`byteLength < MAX_CHUNK_SIZE + MIN_CHUNK_SIZE ≪ 2^53`). -/
def chunkSizeOf (byteLength : Nat) : Nat :=
  if 0 < byteLength - MAX_CHUNK_SIZE ∧ byteLength - MAX_CHUNK_SIZE < MIN_CHUNK_SIZE then
    (byteLength + 1) / 2
  else
    MAX_CHUNK_SIZE

theorem chunkSizeOf_pos (n : Nat) : 0 < chunkSizeOf n := by
  unfold chunkSizeOf MAX_CHUNK_SIZE MIN_CHUNK_SIZE
  split <;> omega

theorem chunkSizeOf_le {n : Nat} (h : MAX_CHUNK_SIZE ≤ n) : chunkSizeOf n ≤ n := by
  unfold MAX_CHUNK_SIZE at h
  unfold chunkSizeOf MAX_CHUNK_SIZE MIN_CHUNK_SIZE
  split <;> omega

theorem chunkSizeOf_bounds {n : Nat} (h : MAX_CHUNK_SIZE ≤ n) :
    MIN_CHUNK_SIZE ≤ chunkSizeOf n ∧ chunkSizeOf n ≤ MAX_CHUNK_SIZE := by
  unfold MAX_CHUNK_SIZE at h
  unfold chunkSizeOf MAX_CHUNK_SIZE MIN_CHUNK_SIZE
  split <;> omega

/-- `transaction/merkle.go`, `chunkData`, written as a recursion over the
remaining buffer `rest` and the running `cursor`: each recursive step is
one iteration of the `for len(rest) >= MAX_CHUNK_SIZE` loop, and the
base case is the final chunk always appended after the loop (possibly of
length zero). `H` is the external `crypto.SHA256`. -/
def chunkDataRec (H : List Nat → List Nat) (rest : List Nat) (cursor : Nat) : List Chunk :=
  if h : MAX_CHUNK_SIZE ≤ rest.length then
    { dataHash := H (rest.take (chunkSizeOf rest.length)),
      minByteRange := cursor,
      maxByteRange := cursor + chunkSizeOf rest.length } ::
      chunkDataRec H (rest.drop (chunkSizeOf rest.length)) (cursor + chunkSizeOf rest.length)
  else
    [{ dataHash := H rest, minByteRange := cursor, maxByteRange := cursor + rest.length }]
termination_by rest.length
decreasing_by
  have h1 := chunkSizeOf_pos rest.length
  have h2 : 0 < MAX_CHUNK_SIZE := by norm_num [MAX_CHUNK_SIZE]
  simp only [List.length_drop]
  omega

/-- `transaction/merkle.go`, `chunkData` (the second, error-free
`crypto.SHA256` variant; the first variant only adds impossible error
propagation around the hash calls). -/
def chunkData (H : List Nat → List Nat) (data : List Nat) : List Chunk :=
  chunkDataRec H data 0

/-- The chunk list `cs` tiles the half-open interval `[lo, hi)`:
ranges are ordered, contiguous, non-overlapping and their union is
exactly `[lo, hi)`. -/
def covers : List Chunk → Nat → Nat → Prop
  | [], lo, hi => lo = hi
  | c :: rest, lo, hi =>
      c.minByteRange = lo ∧ lo ≤ c.maxByteRange ∧ covers rest c.maxByteRange hi

theorem chunkDataRec_spec (H : List Nat → List Nat) (rest : List Nat) (cursor : Nat) :
    chunkDataRec H rest cursor ≠ [] ∧
    covers (chunkDataRec H rest cursor) cursor (cursor + rest.length) ∧
    (∀ c ∈ chunkDataRec H rest cursor,
      c.maxByteRange - c.minByteRange ≤ MAX_CHUNK_SIZE) ∧
    (∀ c ∈ (chunkDataRec H rest cursor).dropLast,
      MIN_CHUNK_SIZE ≤ c.maxByteRange - c.minByteRange) := by
  induction rest, cursor using chunkDataRec.induct H with
  | case1 rest cursor h ih =>
    obtain ⟨ihne, ihcov, ihmax, ihmin⟩ := ih
    have hle := chunkSizeOf_le h
    have hbd := chunkSizeOf_bounds h
    rw [chunkDataRec]
    rw [dif_pos h]
    refine ⟨List.cons_ne_nil _ _, ?_, ?_, ?_⟩
    · rw [covers]
      refine ⟨rfl, by dsimp only; omega, ?_⟩
      have hlen : (rest.drop (chunkSizeOf rest.length)).length =
          rest.length - chunkSizeOf rest.length :=
        List.length_drop _ _
      rw [hlen] at ihcov
      have he : cursor + chunkSizeOf rest.length + (rest.length - chunkSizeOf rest.length) =
          cursor + rest.length := by omega
      rw [he] at ihcov
      exact ihcov
    · intro c hc
      rcases List.mem_cons.mp hc with hc | hc
      · subst hc
        dsimp only
        omega
      · exact ihmax c hc
    · intro c hc
      rw [List.dropLast_cons_of_ne_nil ihne] at hc
      rcases List.mem_cons.mp hc with hc | hc
      · subst hc
        dsimp only
        omega
      · exact ihmin c hc
  | case2 rest cursor h =>
    rw [chunkDataRec, dif_neg h]
    refine ⟨List.cons_ne_nil _ _, ?_, ?_, ?_⟩
    · rw [covers, covers]
      exact ⟨rfl, by dsimp only; omega, rfl⟩
    · intro c hc
      rcases List.mem_singleton.mp hc with rfl
      dsimp only
      unfold MAX_CHUNK_SIZE at h ⊢
      omega
    · intro c hc
      rw [List.dropLast_single] at hc
      exact absurd hc (List.not_mem_nil c)

theorem chunkData_spec (H : List Nat → List Nat) (data : List Nat) :
    chunkData H data ≠ [] ∧
    covers (chunkData H data) 0 data.length ∧
    (∀ c ∈ chunkData H data, c.maxByteRange - c.minByteRange ≤ MAX_CHUNK_SIZE) ∧
    (∀ c ∈ (chunkData H data).dropLast,
      MIN_CHUNK_SIZE ≤ c.maxByteRange - c.minByteRange) := by
  have h0 := chunkDataRec_spec H data 0
  rw [Nat.zero_add] at h0
  exact h0

/-- The claim C2: for every input buffer, `chunkData` returns a
non-empty ordered list of half-open ranges that are contiguous,
non-overlapping and tile exactly `[0, data.length)` (the `covers`
predicate), every chunk except the last has length in
`[MIN_CHUNK_SIZE, MAX_CHUNK_SIZE]`, and the last chunk has length in
`[0, MAX_CHUNK_SIZE]`; the `ceil(remaining/2)` rebalancing rule of the
claim is the `chunkSizeOf` branch taken when subtracting
`MAX_CHUNK_SIZE` would leave a remainder strictly between `0` and
`MIN_CHUNK_SIZE`. -/
theorem chunkData_ranges (H : List Nat → List Nat) (data : List Nat) :
    chunkData H data ≠ [] ∧
    covers (chunkData H data) 0 data.length ∧
    (∀ c ∈ chunkData H data, c.maxByteRange - c.minByteRange ≤ MAX_CHUNK_SIZE) ∧
    (∀ c ∈ (chunkData H data).dropLast,
      MIN_CHUNK_SIZE ≤ c.maxByteRange - c.minByteRange) :=
  chunkData_spec H data

/-! ## Merkle tree builder (`transaction/merkle.go`) -/

/-- `transaction/merkle.go`, struct `Node`, as the owned binary tree it
represents: a leaf carries the chunk's data hash and `MaxByteRange`, a
branch carries `ByteRange` (its left child's `MaxByteRange`),
`MaxByteRange` (its right child's) and owns its two children. -/
inductive Node where
  | leaf (id : List Nat) (dataHash : List Nat) (maxByteRange : Nat)
  | branch (id : List Nat) (byteRange : Nat) (maxByteRange : Nat)
      (leftChild rightChild : Node)
  deriving DecidableEq, Repr

/-- Field `Node.ID`. -/
def Node.id : Node → List Nat
  | .leaf i _ _ => i
  | .branch i _ _ _ _ => i

/-- Field `Node.MaxByteRange`. -/
def Node.maxByteRange : Node → Nat
  | .leaf _ _ m => m
  | .branch _ _ m _ _ => m

/-- Number of leaves of the tree; used to count generated proofs. -/
def Node.leafCount : Node → Nat
  | .leaf _ _ _ => 1
  | .branch _ _ _ l r => l.leafCount + r.leafCount

/-- `transaction/merkle.go`, `generateLeaves`: each chunk becomes a leaf
with `ID = SHA256(SHA256(dataHash) ‖ SHA256(intToByteArray(maxByteRange)))`. -/
def generateLeaves (H : List Nat → List Nat) (chunks : List Chunk) : List Node :=
  chunks.map fun chunk =>
    Node.leaf (H (H chunk.dataHash ++ H (intToByteArray chunk.maxByteRange)))
      chunk.dataHash chunk.maxByteRange

/-- `transaction/merkle.go`, `hashBranch`: `nil` right child returns the
left node unchanged, otherwise a branch node with
`ID = SHA256(SHA256(left.ID) ‖ SHA256(right.ID) ‖ SHA256(intToByteArray(left.MaxByteRange)))`,
`ByteRange = left.MaxByteRange` and `MaxByteRange = right.MaxByteRange`. -/
def hashBranch (H : List Nat → List Nat) (left : Node) (right : Option Node) : Node :=
  match right with
  | none => left
  | some right =>
      Node.branch
        (H (H left.id ++ (H right.id ++ H (intToByteArray left.maxByteRange))))
        left.maxByteRange right.maxByteRange left right

/-- The `for i := 0; i < len(nodes); i += 2` loop of `buildLayer`:
pair adjacent nodes with `hashBranch`; an odd trailing node gets `nil`
as its right sibling and is carried unchanged. -/
def buildLayerStep (H : List Nat → List Nat) : List Node → List Node
  | [] => []
  | [a] => [hashBranch H a none]
  | a :: b :: rest => hashBranch H a (some b) :: buildLayerStep H rest

theorem buildLayerStep_length (H : List Nat → List Nat) (ns : List Node) :
    (buildLayerStep H ns).length = (ns.length + 1) / 2 := by
  induction ns using buildLayerStep.induct H with
  | case1 => rw [buildLayerStep]; rfl
  | case2 a =>
    rw [buildLayerStep, List.length_singleton, List.length_singleton]
  | case3 a b rest ih =>
    rw [buildLayerStep]
    rw [List.length_cons, ih]
    rw [List.length_cons, List.length_cons]
    omega

/-- `transaction/merkle.go`, `buildLayer`: recurse on layers until fewer
than two nodes remain; Go then returns `&nodes[0]`, which panics on an
empty slice — modelled by `List.head?`. -/
def buildLayer (H : List Nat → List Nat) (nodes : List Node) (level : Nat) : Option Node :=
  if nodes.length < 2 then nodes.head?
  else buildLayer H (buildLayerStep H nodes) (level + 1)
termination_by nodes.length
decreasing_by
  rw [buildLayerStep_length]
  omega

/-- `transaction/merkle.go`, struct `Proof`; `Offset` is a Go `int` and
is `-1` for the zero-length chunk of an empty payload, hence `Int`. -/
structure Proof where
  offset : Int
  proof : List Nat
  deriving DecidableEq, Repr

/-- `transaction/merkle.go`, `generateProofs`: depth-first traversal
accumulating `left.ID ‖ right.ID ‖ intToByteArray(ByteRange)` at each
branch and `dataHash ‖ intToByteArray(MaxByteRange)` at each leaf. -/
def generateProofs (H : List Nat → List Nat) : Node → List Nat → List Proof
  | .leaf _ dataHash maxByteRange, acc =>
      [{ offset := (maxByteRange : Int) - 1,
         proof := acc ++ dataHash ++ intToByteArray maxByteRange }]
  | .branch _ byteRange _ l r, acc =>
      generateProofs H l (acc ++ l.id ++ r.id ++ intToByteArray byteRange) ++
      generateProofs H r (acc ++ l.id ++ r.id ++ intToByteArray byteRange)

/-- `transaction/types.go`, struct `ChunkData`. `dataRoot` holds the raw
root id bytes; the Go code stores `crypto.Base64URLEncode(root.ID)`,
a bijective re-encoding omitted here. -/
structure ChunkData where
  dataRoot : List Nat
  chunks : List Chunk
  proofs : List Proof
  deriving DecidableEq, Repr

/-- `transaction/merkle.go`, `generateTransactionChunks`: chunk the
payload, build the tree, generate all proofs, then drop the trailing
chunk and its proof when that chunk has zero length. The `none` cases
model the (unreachable) Go panics on an empty slice. -/
def generateTransactionChunks (H : List Nat → List Nat) (data : List Nat) :
    Option ChunkData :=
  match buildLayer H (generateLeaves H (chunkData H data)) 0 with
  | none => none
  | some root =>
    match (chunkData H data).getLast? with
    | none => none
    | some lastChunk =>
      if lastChunk.maxByteRange - lastChunk.minByteRange = 0 then
        some { dataRoot := root.id,
               chunks := (chunkData H data).dropLast,
               proofs := (generateProofs H root []).dropLast }
      else
        some { dataRoot := root.id,
               chunks := chunkData H data,
               proofs := generateProofs H root [] }

theorem buildLayerStep_append_singleton (H : List Nat → List Nat)
    (ns : List Node) (n : Node) (he : ns.length % 2 = 0) :
    buildLayerStep H (ns ++ [n]) = buildLayerStep H ns ++ [n] := by
  induction ns using buildLayerStep.induct H with
  | case1 =>
    simp only [List.nil_append]
    rw [buildLayerStep, buildLayerStep]
    rfl
  | case2 a =>
    exact absurd he (by simp)
  | case3 a b rest ih =>
    have he' : rest.length % 2 = 0 := by
      simp only [List.length_cons] at he
      omega
    simp only [List.cons_append]
    rw [buildLayerStep, buildLayerStep, ih he', List.cons_append]

/-- The claim C3: the leaf id formula of `generateLeaves`, the branch id
and `maxByteRange` formulas of `hashBranch`, the odd-trailing-node
carry of a layer step, and the recursion of `buildLayer` down to a
single root. -/
theorem merkle_builder_formulas (H : List Nat → List Nat) (chunks : List Chunk)
    (l r n : Node) (ns : List Node) (level : Nat)
    (heven : ns.length % 2 = 0) (h2 : 2 ≤ ns.length) :
    generateLeaves H chunks = chunks.map (fun c =>
        Node.leaf (H (H c.dataHash ++ H (intToByteArray c.maxByteRange)))
          c.dataHash c.maxByteRange) ∧
    hashBranch H l (some r) =
      Node.branch (H (H l.id ++ (H r.id ++ H (intToByteArray l.maxByteRange))))
        l.maxByteRange r.maxByteRange l r ∧
    (hashBranch H l (some r)).maxByteRange = r.maxByteRange ∧
    buildLayerStep H (ns ++ [n]) = buildLayerStep H ns ++ [n] ∧
    buildLayer H [n] level = some n ∧
    buildLayer H ns level = buildLayer H (buildLayerStep H ns) (level + 1) := by
  refine ⟨rfl, rfl, rfl, buildLayerStep_append_singleton H ns n heven, ?_, ?_⟩
  · rw [buildLayer]
    rw [if_pos]
    · rfl
    · rw [List.length_singleton]
      omega
  · rw [buildLayer]
    rw [if_neg (by omega : ¬ ns.length < 2)]

/-- A concrete stand-in hash function used by witnesses. -/
def H0 : List Nat → List Nat := fun _ => []

/-- Witness for C3 on a two-node layer of concrete leaves. -/
theorem merkle_builder_formulas_witness :
    generateLeaves H0 [] = ([] : List Chunk).map (fun c =>
        Node.leaf (H0 (H0 c.dataHash ++ H0 (intToByteArray c.maxByteRange)))
          c.dataHash c.maxByteRange) ∧
    hashBranch H0 (Node.leaf [] [] 0) (some (Node.leaf [] [] 1)) =
      Node.branch (H0 (H0 (Node.leaf [] [] 0).id ++ (H0 (Node.leaf [] [] 1).id ++
          H0 (intToByteArray (Node.leaf [] [] 0).maxByteRange))))
        (Node.leaf [] [] 0).maxByteRange (Node.leaf [] [] 1).maxByteRange
        (Node.leaf [] [] 0) (Node.leaf [] [] 1) ∧
    (hashBranch H0 (Node.leaf [] [] 0)
        (some (Node.leaf [] [] 1))).maxByteRange = (Node.leaf [] [] 1).maxByteRange ∧
    buildLayerStep H0 ([Node.leaf [] [] 0, Node.leaf [] [] 1] ++ [Node.leaf [] [] 2]) =
      buildLayerStep H0 [Node.leaf [] [] 0, Node.leaf [] [] 1] ++ [Node.leaf [] [] 2] ∧
    buildLayer H0 [Node.leaf [] [] 2] 0 = some (Node.leaf [] [] 2) ∧
    buildLayer H0 [Node.leaf [] [] 0, Node.leaf [] [] 1] 0 =
      buildLayer H0 (buildLayerStep H0 [Node.leaf [] [] 0, Node.leaf [] [] 1]) 1 :=
  merkle_builder_formulas H0 [] (Node.leaf [] [] 0) (Node.leaf [] [] 1)
    (Node.leaf [] [] 2) [Node.leaf [] [] 0, Node.leaf [] [] 1] 0 rfl (by decide)

/-- Total leaf count of a layer of nodes. -/
def sumLeafCount (ns : List Node) : Nat :=
  (ns.map Node.leafCount).sum

theorem sumLeafCount_step (H : List Nat → List Nat) (ns : List Node) :
    sumLeafCount (buildLayerStep H ns) = sumLeafCount ns := by
  induction ns using buildLayerStep.induct H with
  | case1 => rfl
  | case2 a => rfl
  | case3 a b rest ih =>
    rw [buildLayerStep]
    unfold sumLeafCount at ih ⊢
    rw [List.map_cons, List.sum_cons, ih, List.map_cons, List.map_cons,
      List.sum_cons, List.sum_cons]
    show (hashBranch H a (some b)).leafCount + _ = _
    rw [show (hashBranch H a (some b)).leafCount = a.leafCount + b.leafCount from rfl]
    omega

theorem buildLayer_leafCount (H : List Nat → List Nat) (ns : List Node) (level : Nat)
    (hne : ns ≠ []) :
    ∃ root, buildLayer H ns level = some root ∧ root.leafCount = sumLeafCount ns := by
  induction ns, level using buildLayer.induct H with
  | case1 ns level hlt =>
    match ns, hne with
    | [a], _ =>
      refine ⟨a, ?_, ?_⟩
      · rw [buildLayer, if_pos hlt]
        rfl
      · unfold sumLeafCount
        rw [List.map_singleton, List.sum_singleton]
    | a :: b :: rest, _ =>
      exact absurd hlt (by rw [List.length_cons, List.length_cons]; omega)
  | case2 ns level hlt ih =>
    have hpos : 0 < ns.length := List.length_pos.mpr hne
    have hsne : buildLayerStep H ns ≠ [] := by
      apply List.ne_nil_of_length_pos
      rw [buildLayerStep_length]
      omega
    obtain ⟨root, hroot, hcount⟩ := ih hsne
    refine ⟨root, ?_, ?_⟩
    · rw [buildLayer, if_neg hlt]
      exact hroot
    · rw [hcount, sumLeafCount_step]

theorem generateProofs_length (H : List Nat → List Nat) (t : Node) (acc : List Nat) :
    (generateProofs H t acc).length = t.leafCount := by
  induction t generalizing acc with
  | leaf i d m => rfl
  | branch i br m l r ihl ihr =>
    rw [generateProofs, List.length_append, ihl, ihr]
    rfl

theorem sumLeafCount_generateLeaves (H : List Nat → List Nat) (chunks : List Chunk) :
    sumLeafCount (generateLeaves H chunks) = chunks.length := by
  induction chunks with
  | nil => rfl
  | cons c cs ih =>
    unfold generateLeaves sumLeafCount at ih ⊢
    rw [List.map_cons, List.map_cons, List.sum_cons, ih, List.length_cons]
    rw [show (Node.leaf (H (H c.dataHash ++ H (intToByteArray c.maxByteRange)))
        c.dataHash c.maxByteRange).leafCount = 1 from rfl]
    omega

theorem generateTransactionChunks_eq (H : List Nat → List Nat) (data : List Nat)
    (root : Node) (lastChunk : Chunk)
    (hb : buildLayer H (generateLeaves H (chunkData H data)) 0 = some root)
    (hl : (chunkData H data).getLast? = some lastChunk) :
    generateTransactionChunks H data =
      if lastChunk.maxByteRange - lastChunk.minByteRange = 0 then
        some { dataRoot := root.id,
               chunks := (chunkData H data).dropLast,
               proofs := (generateProofs H root []).dropLast }
      else
        some { dataRoot := root.id,
               chunks := chunkData H data,
               proofs := generateProofs H root [] } := by
  rw [generateTransactionChunks, hb, hl]

/-- The claim C8: `generateTransactionChunks` always succeeds, returns
exactly as many proofs as chunks, and returns no zero-length chunk:
when the chunker's boundary case produces a zero-length trailing chunk,
that chunk and its proof are both dropped. -/
theorem generateTransactionChunks_invariant (H : List Nat → List Nat) (data : List Nat) :
    ∃ cd, generateTransactionChunks H data = some cd ∧
      cd.chunks.length = cd.proofs.length ∧
      ∀ c ∈ cd.chunks, 0 < c.maxByteRange - c.minByteRange := by
  obtain ⟨hne, _hcov, _hmax, hmin⟩ := chunkData_spec H data
  have hminpos : 0 < MIN_CHUNK_SIZE := by norm_num [MIN_CHUNK_SIZE]
  have hlne : generateLeaves H (chunkData H data) ≠ [] := by
    unfold generateLeaves
    intro hmapnil
    exact hne (List.map_eq_nil_iff.mp hmapnil)
  obtain ⟨root, hb, hlc⟩ := buildLayer_leafCount H _ 0 hlne
  have hplen : (generateProofs H root []).length = (chunkData H data).length := by
    rw [generateProofs_length, hlc, sumLeafCount_generateLeaves]
  have hglast := List.getLast?_eq_getLast_of_ne_nil hne
  rw [generateTransactionChunks_eq H data root _ hb hglast]
  by_cases hz : ((chunkData H data).getLast hne).maxByteRange -
      ((chunkData H data).getLast hne).minByteRange = 0
  · rw [if_pos hz]
    refine ⟨_, rfl, ?_, ?_⟩
    · rw [List.length_dropLast, List.length_dropLast, hplen]
    · intro c hc
      have := hmin c hc
      omega
  · rw [if_neg hz]
    refine ⟨_, rfl, hplen.symm, ?_⟩
    intro c hc
    have hsplit : (chunkData H data).dropLast ++ [(chunkData H data).getLast hne] =
        chunkData H data := List.dropLast_append_getLast hne
    have hc2 : c ∈ (chunkData H data).dropLast ++ [(chunkData H data).getLast hne] := by
      rw [hsplit]
      exact hc
    rcases List.mem_append.mp hc2 with hc' | hc'
    · have := hmin c hc'
      omega
    · rcases List.mem_singleton.mp hc' with rfl
      omega

/-! ## Proof validation (`transaction/merkle.go`, `validatePath`) -/

/-- `transaction/merkle.go`, constant `HASH_SIZE`. -/
def HASH_SIZE : Nat := 32

/-- `transaction/merkle.go`, constant `NOTE_SIZE`. -/
def NOTE_SIZE : Nat := 32

/-- `transaction/merkle.go`, struct `ValidatePathResult`; all fields are
Go `int`s. -/
structure ValidatePathResult where
  offset : Int
  leftBound : Int
  rightBound : Int
  chunkSize : Int
  deriving DecidableEq, Repr

/-- `transaction/merkle.go`, `validatePath`. Slice expressions follow Go
semantics with `cap = len`: in the branch case the code slices
`path[0:32]`, `path[32:64]` and `path[64:96]`, which panics
(`GoErr.panic`) whenever the path is shorter than 96 bytes — the
64-byte case was already consumed by the leaf check above it. -/
def validatePath (H : List Nat → List Nat) (id : List Nat)
    (dest leftBound rightBound : Int) (path : List Nat) :
    Except GoErr ValidatePathResult :=
  if h1 : rightBound ≤ 0 then
    .error (.err "right bound < 0")
  else if h2 : rightBound ≤ dest then
    validatePath H id 0 (rightBound - 1) rightBound path
  else if h3 : dest < 0 then
    validatePath H id 0 0 rightBound path
  else if h4 : path.length = HASH_SIZE + NOTE_SIZE then
    if id = H (H (path.take HASH_SIZE) ++ H ((path.drop HASH_SIZE).take NOTE_SIZE)) then
      .ok { offset := rightBound - 1, leftBound := leftBound,
            rightBound := rightBound, chunkSize := rightBound - leftBound }
    else
      .error (.err "invalid path")
  else if h5 : path.length < HASH_SIZE + HASH_SIZE + NOTE_SIZE then
    .error .panic
  else
    if id = H (H (path.take HASH_SIZE) ++ H ((path.drop HASH_SIZE).take HASH_SIZE) ++
        H ((path.drop (HASH_SIZE + HASH_SIZE)).take NOTE_SIZE)) then
      if dest < byteArrayToInt ((path.drop (HASH_SIZE + HASH_SIZE)).take NOTE_SIZE) then
        validatePath H (path.take HASH_SIZE) dest leftBound
          (min rightBound (byteArrayToInt ((path.drop (HASH_SIZE + HASH_SIZE)).take NOTE_SIZE)))
          (path.drop (HASH_SIZE + HASH_SIZE + NOTE_SIZE))
      else
        validatePath H ((path.drop HASH_SIZE).take HASH_SIZE) dest
          (max leftBound (byteArrayToInt ((path.drop (HASH_SIZE + HASH_SIZE)).take NOTE_SIZE)))
          rightBound
          (path.drop (HASH_SIZE + HASH_SIZE + NOTE_SIZE))
    else
      .error (.err "no valid path")
termination_by 2 * path.length + (if rightBound ≤ dest ∨ dest < 0 then 1 else 0)
decreasing_by
  · split
    · omega
    · split <;> omega
  · split
    · omega
    · split <;> omega
  · unfold HASH_SIZE NOTE_SIZE at h4 h5
    simp only [List.length_drop]
    split <;> (try split) <;> (unfold HASH_SIZE NOTE_SIZE; omega)
  · unfold HASH_SIZE NOTE_SIZE at h4 h5
    simp only [List.length_drop]
    split <;> (try split) <;> (unfold HASH_SIZE NOTE_SIZE; omega)

/-- The claim C4 is violated: on the empty path with positive right
bound, Go's `path[0:HASH_SIZE]` slice expression is out of range and
the function panics instead of returning a validation error. -/
theorem validatePath_empty_path_panics (H : List Nat → List Nat) :
    validatePath H [] 0 0 1 [] = .error .panic := by
  rw [validatePath]
  rw [dif_neg (by decide), dif_neg (by decide), dif_neg (by decide),
    dif_neg (by decide), dif_pos (by decide)]

/-! ## Proof completeness (C1) -/

/-- Round trip of the 32-byte offset note, shared by the claims about
leaf/branch notes and by proof validation. -/
theorem byteArrayToInt_intToByteArray {n : Nat} (h : n < 2 ^ 63) :
    byteArrayToInt (intToByteArray n) = n := by
  have hm : n % 256 ^ 32 = n := by
    apply Nat.mod_eq_of_lt
    calc n < 2 ^ 63 := h
      _ ≤ 256 ^ 32 := by norm_num
  have h32 : 0 * 256 ^ 32 + n % 256 ^ 32 < 2 ^ 63 := by
    rw [hm]
    omega
  have h2 := byteArrayToInt_aux 32 n 0 h32
  rw [hm] at h2
  have h3 : 0 * 256 ^ 32 + n = n := by
    omega
  rw [h3] at h2
  exact h2

/-- `Spans H t lo hi`: the tree `t` is exactly the Merkle tree the
builder produces over consecutive chunks tiling `[lo, hi)` — leaf and
branch ids follow the `generateLeaves` / `hashBranch` formulas, each
branch's `ByteRange` is the split offset between its children, and
`maxByteRange` is the subtree's right boundary. -/
inductive Spans (H : List Nat → List Nat) : Node → Nat → Nat → Prop where
  | leaf (dataHash : List Nat) (lo hi : Nat)
      (hdh : dataHash.length = 32) (hle : lo ≤ hi) :
      Spans H (Node.leaf (H (H dataHash ++ H (intToByteArray hi))) dataHash hi) lo hi
  | branch (l r : Node) (lo m hi : Nat)
      (hl : Spans H l lo m) (hr : Spans H r m hi) :
      Spans H (Node.branch (H (H l.id ++ (H r.id ++ H (intToByteArray m))))
        m hi l r) lo hi

theorem Spans.max_eq {H : List Nat → List Nat} {t : Node} {lo hi : Nat}
    (h : Spans H t lo hi) : t.maxByteRange = hi := by
  cases h <;> rfl

theorem Spans.lo_le {H : List Nat → List Nat} {t : Node} {lo hi : Nat}
    (h : Spans H t lo hi) : lo ≤ hi := by
  induction h with
  | leaf _ _ _ _ hle => exact hle
  | branch _ _ _ _ _ _ _ ihl ihr => omega

theorem Spans.id_length {H : List Nat → List Nat} {t : Node} {lo hi : Nat}
    (Hlen : ∀ b, (H b).length = 32) (h : Spans H t lo hi) : t.id.length = 32 := by
  cases h with
  | leaf dataHash lo hi hdh hle => exact Hlen _
  | branch l r lo m hi hl hr => exact Hlen _

/-- The ordered list of leaf byte ranges of a tree whose leftmost
boundary is `lo`. -/
def Node.ranges : Node → Nat → List (Nat × Nat)
  | .leaf _ _ mx, lo => [(lo, mx)]
  | .branch _ _ _ l r, lo => l.ranges lo ++ r.ranges l.maxByteRange

theorem Node.ranges_length (t : Node) (lo : Nat) :
    (t.ranges lo).length = t.leafCount := by
  induction t generalizing lo with
  | leaf i dh mx => rfl
  | branch i br mx l r ihl ihr =>
    rw [Node.ranges, List.length_append, ihl, ihr]
    rfl

theorem generateProofs_acc (H : List Nat → List Nat) (t : Node) (acc : List Nat) :
    generateProofs H t acc =
      (generateProofs H t []).map
        (fun pr => { offset := pr.offset, proof := acc ++ pr.proof }) := by
  induction t generalizing acc with
  | leaf i dh mx =>
    rw [generateProofs, generateProofs]
    simp
  | branch i br mx l r ihl ihr =>
    rw [generateProofs, generateProofs]
    rw [ihl (acc ++ l.id ++ r.id ++ intToByteArray br),
      ihr (acc ++ l.id ++ r.id ++ intToByteArray br),
      ihl ([] ++ l.id ++ r.id ++ intToByteArray br),
      ihr ([] ++ l.id ++ r.id ++ intToByteArray br)]
    simp only [List.map_append, List.map_map]
    congr 1 <;>
      (apply List.map_congr_left; intro pr _; simp [List.append_assoc])

theorem spans_proof_length {H : List Nat → List Nat} {t : Node} {lo hi : Nat}
    (hs : Spans H t lo hi) :
    ∀ pr ∈ generateProofs H t [], 64 ≤ pr.proof.length := by
  induction hs with
  | leaf dh lo hi hdh hle =>
    intro pr hpr
    rw [generateProofs] at hpr
    rcases List.mem_singleton.mp hpr with rfl
    simp only [List.nil_append, List.length_append, hdh, intToByteArray_length]
    omega
  | branch l r lo m hi hl hr ihl ihr =>
    intro pr hpr
    rw [generateProofs] at hpr
    rcases List.mem_append.mp hpr with hpr | hpr <;>
      rw [generateProofs_acc] at hpr
    · rcases List.mem_map.mp hpr with ⟨q, hq, rfl⟩
      have := ihl q hq
      simp only [List.length_append]
      omega
    · rcases List.mem_map.mp hpr with ⟨q, hq, rfl⟩
      have := ihr q hq
      simp only [List.length_append]
      omega

theorem spans_ranges_bounds {H : List Nat → List Nat} {t : Node} {lo hi : Nat}
    (hs : Spans H t lo hi) :
    ∀ rg ∈ t.ranges lo, lo ≤ rg.1 ∧ rg.1 ≤ rg.2 ∧ rg.2 ≤ hi := by
  induction hs with
  | leaf dh lo hi hdh hle =>
    intro rg hrg
    rcases List.mem_singleton.mp hrg with rfl
    exact ⟨Nat.le_refl lo, hle, Nat.le_refl hi⟩
  | branch l r lo m hi hl hr ihl ihr =>
    intro rg hrg
    rw [Node.ranges, hl.max_eq] at hrg
    have hlom := hl.lo_le
    have hmhi := hr.lo_le
    rcases List.mem_append.mp hrg with hrg | hrg
    · have := ihl rg hrg
      omega
    · have := ihr rg hrg
      omega

theorem leaf_slices {a b : List Nat} (ha : a.length = 32) (hb : b.length = 32) :
    (a ++ b).take HASH_SIZE = a ∧ ((a ++ b).drop HASH_SIZE).take NOTE_SIZE = b := by
  unfold HASH_SIZE NOTE_SIZE
  constructor
  · exact List.take_left' ha
  · rw [List.drop_left' ha]
    exact List.take_of_length_le (by omega)

theorem branch_slices {a b c q : List Nat} (ha : a.length = 32)
    (hb : b.length = 32) (hc : c.length = 32) :
    (a ++ (b ++ (c ++ q))).take HASH_SIZE = a ∧
    ((a ++ (b ++ (c ++ q))).drop HASH_SIZE).take HASH_SIZE = b ∧
    ((a ++ (b ++ (c ++ q))).drop (HASH_SIZE + HASH_SIZE)).take NOTE_SIZE = c ∧
    (a ++ (b ++ (c ++ q))).drop (HASH_SIZE + HASH_SIZE + NOTE_SIZE) = q := by
  unfold HASH_SIZE NOTE_SIZE
  have d32 : (a ++ (b ++ (c ++ q))).drop 32 = b ++ (c ++ q) :=
    List.drop_left' ha
  have d64 : (a ++ (b ++ (c ++ q))).drop (32 + 32) = c ++ q := by
    rw [← List.drop_drop, d32]
    exact List.drop_left' hb
  have d96 : (a ++ (b ++ (c ++ q))).drop (32 + 32 + 32) = q := by
    rw [← List.drop_drop, d64]
    exact List.drop_left' hc
  refine ⟨List.take_left' ha, ?_, ?_, d96⟩
  · rw [d32]
    exact List.take_left' hb
  · rw [d64]
    exact List.take_left' hc

/-- The path of a retained leaf validates to exactly that leaf's range:
the key induction behind C1, over a tree spanning `[lo, hi)`. -/
theorem validatePath_correct (H : List Nat → List Nat) (Hlen : ∀ b, (H b).length = 32)
    {t : Node} {lo hi : Nat} (hs : Spans H t lo hi) :
    hi < 2 ^ 63 →
    ∀ (j : Nat) (pr : Proof) (rg : Nat × Nat),
      (generateProofs H t [])[j]? = some pr →
      (t.ranges lo)[j]? = some rg →
      ∀ dest : Nat, rg.1 ≤ dest → dest < rg.2 →
      validatePath H t.id (dest : Int) (lo : Int) (hi : Int) pr.proof =
        .ok { offset := (rg.2 : Int) - 1, leftBound := (rg.1 : Int),
              rightBound := (rg.2 : Int), chunkSize := (rg.2 : Int) - (rg.1 : Int) } := by
  induction hs with
  | leaf dh lo hi hdh hle =>
    intro hbound j pr rg hpr hrg dest hd1 hd2
    rw [generateProofs] at hpr
    rw [Node.ranges] at hrg
    cases j with
    | succ j =>
      rw [List.getElem?_cons_succ, List.getElem?_nil] at hpr
      exact absurd hpr (by simp)
    | zero =>
      rw [List.getElem?_cons_zero, Option.some_inj] at hpr hrg
      subst hpr
      subst hrg
      simp only [List.nil_append]
      have hsl := leaf_slices hdh (intToByteArray_length hi)
      rw [Node.id, validatePath]
      rw [dif_neg (by omega), dif_neg (by omega), dif_neg (by omega)]
      rw [dif_pos (by
        rw [List.length_append, hdh, intToByteArray_length]
        rfl)]
      rw [hsl.1, hsl.2]
      rw [if_pos rfl]
  | branch l r lo m hi hl hr ihl ihr =>
    intro hbound j pr rg hpr hrg dest hd1 hd2
    have hidl : l.id.length = 32 := Spans.id_length Hlen hl
    have hidr : r.id.length = 32 := Spans.id_length Hlen hr
    have hlom : lo ≤ m := hl.lo_le
    have hmhi : m ≤ hi := hr.lo_le
    have hm63 : m < 2 ^ 63 := by omega
    rw [generateProofs,
      generateProofs_acc H l ([] ++ l.id ++ r.id ++ intToByteArray m),
      generateProofs_acc H r ([] ++ l.id ++ r.id ++ intToByteArray m)] at hpr
    rw [Node.ranges, hl.max_eq] at hrg
    have hgl : (generateProofs H l []).length = l.leafCount :=
      generateProofs_length H l []
    have hrl : (l.ranges lo).length = l.leafCount := Node.ranges_length l lo
    rcases Nat.lt_or_ge j l.leafCount with hj | hj
    · rw [List.getElem?_append_left (by rw [List.length_map, hgl]; exact hj)] at hpr
      rw [List.getElem?_append_left (by rw [hrl]; exact hj)] at hrg
      rw [List.getElem?_map] at hpr
      rcases Option.map_eq_some'.mp hpr with ⟨prl, hprl, rfl⟩
      have hbnd := spans_ranges_bounds hl rg (List.getElem?_mem hrg)
      have hsublen : 64 ≤ prl.proof.length :=
        spans_proof_length hl prl (List.getElem?_mem hprl)
      simp only [List.nil_append, List.append_assoc]
      have hsl := branch_slices hidl hidr (intToByteArray_length m)
        (q := prl.proof)
      rw [Node.id, validatePath]
      rw [dif_neg (by omega), dif_neg (by omega), dif_neg (by omega)]
      rw [dif_neg (by
        rw [List.length_append, List.length_append, List.length_append,
          hidl, hidr, intToByteArray_length]
        unfold HASH_SIZE NOTE_SIZE
        omega)]
      rw [dif_neg (by
        rw [List.length_append, List.length_append, List.length_append,
          hidl, hidr, intToByteArray_length]
        unfold HASH_SIZE NOTE_SIZE
        omega)]
      rw [hsl.1, hsl.2.1, hsl.2.2.1, hsl.2.2.2]
      rw [byteArrayToInt_intToByteArray hm63]
      rw [List.append_assoc (H l.id) (H r.id) (H (intToByteArray m))]
      rw [if_pos rfl]
      rw [if_pos (by omega : (dest : Int) < (m : Int))]
      rw [show min (hi : Int) (m : Int) = (m : Int) by omega]
      exact ihl hm63 j prl rg hprl hrg dest hd1 hd2
    · rw [List.getElem?_append_right (by rw [List.length_map, hgl]; exact hj)] at hpr
      rw [List.getElem?_append_right (by rw [hrl]; exact hj)] at hrg
      rw [List.length_map, hgl] at hpr
      rw [hrl] at hrg
      rw [List.getElem?_map] at hpr
      rcases Option.map_eq_some'.mp hpr with ⟨prr, hprr, rfl⟩
      have hbnd := spans_ranges_bounds hr rg (List.getElem?_mem hrg)
      have hsublen : 64 ≤ prr.proof.length :=
        spans_proof_length hr prr (List.getElem?_mem hprr)
      simp only [List.nil_append, List.append_assoc]
      have hsl := branch_slices hidl hidr (intToByteArray_length m)
        (q := prr.proof)
      rw [Node.id, validatePath]
      rw [dif_neg (by omega), dif_neg (by omega), dif_neg (by omega)]
      rw [dif_neg (by
        rw [List.length_append, List.length_append, List.length_append,
          hidl, hidr, intToByteArray_length]
        unfold HASH_SIZE NOTE_SIZE
        omega)]
      rw [dif_neg (by
        rw [List.length_append, List.length_append, List.length_append,
          hidl, hidr, intToByteArray_length]
        unfold HASH_SIZE NOTE_SIZE
        omega)]
      rw [hsl.1, hsl.2.1, hsl.2.2.1, hsl.2.2.2]
      rw [byteArrayToInt_intToByteArray hm63]
      rw [List.append_assoc (H l.id) (H r.id) (H (intToByteArray m))]
      rw [if_pos rfl]
      rw [if_neg (by omega : ¬ (dest : Int) < (m : Int))]
      rw [show max (lo : Int) (m : Int) = (m : Int) by omega]
      exact ihr hbound (j - l.leafCount) prr rg hprr hrg dest hd1 hd2

theorem hashBranch_none (H : List Nat → List Nat) (a : Node) :
    hashBranch H a none = a := rfl

theorem hashBranch_some (H : List Nat → List Nat) (a b : Node) :
    hashBranch H a (some b) =
      Node.branch (H (H a.id ++ (H b.id ++ H (intToByteArray a.maxByteRange))))
        a.maxByteRange b.maxByteRange a b := rfl

/-- `Layer H lo ns hi`: the nodes `ns` are consecutive well-formed
subtrees tiling `[lo, hi)`, as each layer of `buildLayer` is. -/
inductive Layer (H : List Nat → List Nat) : Nat → List Node → Nat → Prop where
  | nil (lo : Nat) : Layer H lo [] lo
  | cons {t : Node} {lo m hi : Nat} {ns : List Node}
      (ht : Spans H t lo m) (hns : Layer H m ns hi) : Layer H lo (t :: ns) hi

theorem layer_step (H : List Nat → List Nat) :
    ∀ {ns : List Node} {lo hi : Nat}, Layer H lo ns hi →
      Layer H lo (buildLayerStep H ns) hi := by
  intro ns
  induction ns using buildLayerStep.induct H with
  | case1 =>
    intro lo hi h
    rw [buildLayerStep]
    exact h
  | case2 a =>
    intro lo hi h
    rw [buildLayerStep, hashBranch_none]
    exact h
  | case3 a b rest ih =>
    intro lo hi h
    rcases h with _ | @⟨ta, lo, m1, hi, nsa, hta, h2⟩
    rcases h2 with _ | @⟨tb, m1b, m2, hib, nsb, htb, h3⟩
    rw [buildLayerStep]
    refine Layer.cons ?_ (ih h3)
    rw [hashBranch_some, hta.max_eq, htb.max_eq]
    exact Spans.branch a b lo m1 m2 hta htb

theorem buildLayer_spans (H : List Nat → List Nat) :
    ∀ (ns : List Node) (level : Nat) {lo hi : Nat} {root : Node},
      Layer H lo ns hi → buildLayer H ns level = some root →
      Spans H root lo hi := by
  intro ns level
  induction ns, level using buildLayer.induct H with
  | case1 ns level hlt =>
    intro lo hi root hlay hb
    rw [buildLayer, if_pos hlt] at hb
    match ns, hlt, hlay, hb with
    | [], _, _, hb => exact absurd hb (by simp)
    | [a], _, hlay, hb =>
      rw [List.head?_cons, Option.some_inj] at hb
      subst hb
      rcases hlay with _ | @⟨ta, lo, m1, hi, nsa, hta, h2⟩
      cases h2
      exact hta
    | a :: b :: rest, hlt, _, _ =>
      exact absurd hlt (by rw [List.length_cons, List.length_cons]; omega)
  | case2 ns level hlt ih =>
    intro lo hi root hlay hb
    rw [buildLayer, if_neg hlt] at hb
    exact ih (layer_step H hlay) hb

/-- Concatenated leaf ranges of a layer of consecutive subtrees. -/
def listRanges : List Node → Nat → List (Nat × Nat)
  | [], _ => []
  | t :: rest, lo => t.ranges lo ++ listRanges rest t.maxByteRange

theorem listRanges_step (H : List Nat → List Nat) :
    ∀ (ns : List Node) (lo : Nat),
      listRanges (buildLayerStep H ns) lo = listRanges ns lo := by
  intro ns
  induction ns using buildLayerStep.induct H with
  | case1 =>
    intro lo
    rw [buildLayerStep]
  | case2 a =>
    intro lo
    rw [buildLayerStep, hashBranch_none]
  | case3 a b rest ih =>
    intro lo
    rw [buildLayerStep]
    rw [listRanges]
    have h1 : (hashBranch H a (some b)).ranges lo =
        a.ranges lo ++ b.ranges a.maxByteRange := rfl
    have h2 : (hashBranch H a (some b)).maxByteRange = b.maxByteRange := rfl
    rw [h1, h2, ih]
    rw [listRanges, listRanges, List.append_assoc]

theorem buildLayer_ranges (H : List Nat → List Nat) :
    ∀ (ns : List Node) (level : Nat) {root : Node} (lo : Nat),
      buildLayer H ns level = some root → root.ranges lo = listRanges ns lo := by
  intro ns level
  induction ns, level using buildLayer.induct H with
  | case1 ns level hlt =>
    intro root lo hb
    rw [buildLayer, if_pos hlt] at hb
    match ns, hlt, hb with
    | [], _, hb => exact absurd hb (by simp)
    | [a], _, hb =>
      rw [List.head?_cons, Option.some_inj] at hb
      subst hb
      rw [listRanges, listRanges, List.append_nil]
    | a :: b :: rest, hlt, _ =>
      exact absurd hlt (by rw [List.length_cons, List.length_cons]; omega)
  | case2 ns level hlt ih =>
    intro root lo hb
    rw [buildLayer, if_neg hlt] at hb
    rw [ih lo hb, listRanges_step]

theorem layer_generateLeaves (H : List Nat → List Nat)
    (Hlen : ∀ b, (H b).length = 32) :
    ∀ (cs : List Chunk) (lo hi : Nat), covers cs lo hi →
      (∀ c ∈ cs, ∃ b, c.dataHash = H b) →
      Layer H lo (generateLeaves H cs) hi := by
  intro cs
  induction cs with
  | nil =>
    intro lo hi hcov _
    rw [covers] at hcov
    subst hcov
    rw [generateLeaves, List.map_nil]
    exact Layer.nil lo
  | cons c cs ih =>
    intro lo hi hcov hdh
    rw [covers] at hcov
    obtain ⟨h1, h2, h3⟩ := hcov
    rw [generateLeaves, List.map_cons]
    refine @Layer.cons H _ lo c.maxByteRange hi _ ?_ ?_
    · obtain ⟨b, hb⟩ := hdh c (List.mem_cons_self c cs)
      exact Spans.leaf c.dataHash lo c.maxByteRange (by rw [hb]; exact Hlen b) h2
    · have := ih c.maxByteRange hi h3 (fun x hx => hdh x (List.mem_cons_of_mem c hx))
      rw [generateLeaves] at this
      exact this

theorem listRanges_generateLeaves (H : List Nat → List Nat) :
    ∀ (cs : List Chunk) (lo hi : Nat), covers cs lo hi →
      listRanges (generateLeaves H cs) lo =
        cs.map (fun c => (c.minByteRange, c.maxByteRange)) := by
  intro cs
  induction cs with
  | nil =>
    intro lo hi _
    rw [generateLeaves, List.map_nil, listRanges, List.map_nil]
  | cons c cs ih =>
    intro lo hi hcov
    rw [covers] at hcov
    obtain ⟨h1, h2, h3⟩ := hcov
    rw [generateLeaves, List.map_cons, listRanges]
    have hr : (Node.leaf (H (H c.dataHash ++ H (intToByteArray c.maxByteRange)))
        c.dataHash c.maxByteRange).ranges lo = [(lo, c.maxByteRange)] := rfl
    have hm : (Node.leaf (H (H c.dataHash ++ H (intToByteArray c.maxByteRange)))
        c.dataHash c.maxByteRange).maxByteRange = c.maxByteRange := rfl
    rw [hr, hm]
    have := ih c.maxByteRange hi h3
    rw [generateLeaves] at this
    rw [this, List.map_cons, List.singleton_append, h1]

theorem chunkDataRec_dataHash (H : List Nat → List Nat) (rest : List Nat) (cursor : Nat) :
    ∀ c ∈ chunkDataRec H rest cursor, ∃ b, c.dataHash = H b := by
  induction rest, cursor using chunkDataRec.induct H with
  | case1 rest cursor h ih =>
    intro c hc
    rw [chunkDataRec, dif_pos h] at hc
    rcases List.mem_cons.mp hc with hc | hc
    · subst hc
      exact ⟨_, rfl⟩
    · exact ih c hc
  | case2 rest cursor h =>
    intro c hc
    rw [chunkDataRec, dif_neg h] at hc
    rcases List.mem_singleton.mp hc with rfl
    exact ⟨_, rfl⟩

/-- The claim C1: every chunk retained by `generateTransactionChunks`
validates, with its proof at the same index, against the root id over
bounds `[0, payload length)`, for any destination offset inside the
chunk's range, returning exactly that chunk's `minByteRange` and
`maxByteRange` as `LeftBound`/`RightBound`. The bound `data.length <
2 ^ 63` is the range of Go's `int` and `Hlen` states that the external
SHA-256 returns 32 bytes. -/
theorem generateTransactionChunks_validatePath (H : List Nat → List Nat)
    (Hlen : ∀ b, (H b).length = 32) (data : List Nat) (hdata : data.length < 2 ^ 63)
    (cd : ChunkData) (hcd : generateTransactionChunks H data = some cd)
    (i : Nat) (hci : i < cd.chunks.length) (hpi : i < cd.proofs.length)
    (dest : Nat) (hd1 : cd.chunks[i].minByteRange ≤ dest)
    (hd2 : dest < cd.chunks[i].maxByteRange) :
    validatePath H cd.dataRoot (dest : Int) 0 (data.length : Int) cd.proofs[i].proof =
      .ok { offset := (cd.chunks[i].maxByteRange : Int) - 1,
            leftBound := (cd.chunks[i].minByteRange : Int),
            rightBound := (cd.chunks[i].maxByteRange : Int),
            chunkSize := (cd.chunks[i].maxByteRange : Int) -
              (cd.chunks[i].minByteRange : Int) } := by
  obtain ⟨hne, hcov, hmax, hmin⟩ := chunkData_spec H data
  have hlne : generateLeaves H (chunkData H data) ≠ [] := by
    rw [generateLeaves]
    intro hmapnil
    exact hne (List.map_eq_nil_iff.mp hmapnil)
  obtain ⟨root, hb, hlc⟩ := buildLayer_leafCount H _ 0 hlne
  have hlay : Layer H 0 (generateLeaves H (chunkData H data)) data.length :=
    layer_generateLeaves H Hlen _ 0 data.length hcov
      (fun c hc => chunkDataRec_dataHash H data 0 c hc)
  have hspan : Spans H root 0 data.length := buildLayer_spans H _ 0 hlay hb
  have hranges : root.ranges 0 =
      (chunkData H data).map (fun c => (c.minByteRange, c.maxByteRange)) := by
    rw [buildLayer_ranges H _ 0 0 hb]
    exact listRanges_generateLeaves H _ 0 data.length hcov
  have hplen : (generateProofs H root []).length = (chunkData H data).length := by
    rw [generateProofs_length, hlc, sumLeafCount_generateLeaves]
  have hglast := List.getLast?_eq_getLast_of_ne_nil hne
  rw [generateTransactionChunks_eq H data root _ hb hglast] at hcd
  by_cases hz : ((chunkData H data).getLast hne).maxByteRange -
      ((chunkData H data).getLast hne).minByteRange = 0
  · rw [if_pos hz, Option.some_inj] at hcd
    subst hcd
    dsimp only at hci hpi hd1 hd2 ⊢
    have hci2 : i < (chunkData H data).length := by
      rw [List.length_dropLast] at hci
      omega
    have hpi2 : i < (generateProofs H root []).length := by
      rw [hplen]
      exact hci2
    have hc_eq := List.getElem_dropLast (chunkData H data) i hci
    rw [hc_eq] at hd1 hd2 ⊢
    have hp_eq := List.getElem_dropLast (generateProofs H root []) i hpi
    rw [hp_eq]
    have hrg : (root.ranges 0)[i]? =
        some (((chunkData H data)[i]).minByteRange,
          ((chunkData H data)[i]).maxByteRange) := by
      rw [hranges, List.getElem?_map, List.getElem?_eq_getElem hci2]
      rfl
    have happ := validatePath_correct H Hlen hspan hdata i _ _
      (List.getElem?_eq_getElem hpi2) hrg dest hd1 hd2
    rw [Nat.cast_zero] at happ
    exact happ
  · rw [if_neg hz, Option.some_inj] at hcd
    subst hcd
    dsimp only at hci hpi hd1 hd2 ⊢
    have hrg : (root.ranges 0)[i]? =
        some (((chunkData H data)[i]).minByteRange,
          ((chunkData H data)[i]).maxByteRange) := by
      rw [hranges, List.getElem?_map, List.getElem?_eq_getElem hci]
      rfl
    have happ := validatePath_correct H Hlen hspan hdata i _ _
      (List.getElem?_eq_getElem hpi) hrg dest hd1 hd2
    rw [Nat.cast_zero] at happ
    exact happ

/-- A concrete stand-in hash with 32-byte output, for witnesses. -/
def H32 : List Nat → List Nat := fun _ => List.replicate 32 0

/-- The `ChunkData` that `generateTransactionChunks H32 [0]` produces. -/
def cdW : ChunkData :=
  { dataRoot := List.replicate 32 0,
    chunks := [⟨List.replicate 32 0, 0, 1⟩],
    proofs := [⟨0, List.replicate 32 0 ++ intToByteArray 1⟩] }

/-- Witness for C1 on the one-byte payload `[0]`. -/
theorem generateTransactionChunks_validatePath_witness :
    validatePath H32 cdW.dataRoot 0 0 1 (List.replicate 32 0 ++ intToByteArray 1) =
      .ok { offset := 0, leftBound := 0, rightBound := 1, chunkSize := 1 } := by
  have h1 : chunkData H32 [0] = [⟨List.replicate 32 0, 0, 1⟩] := by
    rw [chunkData, chunkDataRec, dif_neg (by decide)]
    rfl
  have hb : buildLayer H32 (generateLeaves H32 (chunkData H32 [0])) 0 =
      some (Node.leaf (List.replicate 32 0) (List.replicate 32 0) 1) := by
    rw [h1]
    rw [show generateLeaves H32 [⟨List.replicate 32 0, 0, 1⟩] =
      [Node.leaf (List.replicate 32 0) (List.replicate 32 0) 1] from rfl]
    rw [buildLayer, if_pos (by decide)]
    rfl
  have hl : (chunkData H32 [0]).getLast? =
      some (⟨List.replicate 32 0, 0, 1⟩ : Chunk) := by
    rw [h1]
    rfl
  have hcd : generateTransactionChunks H32 [0] = some cdW := by
    rw [generateTransactionChunks_eq H32 [0] _ _ hb hl, if_neg (by decide), h1]
    rfl
  have h := generateTransactionChunks_validatePath H32 (fun _ => rfl) [0]
    (by decide) cdW hcd 0 (by decide) (by decide) 0 (by decide) (by decide)
  exact h

/-! ## Deep hash (`crypto`, `part_008`: `DeepHash`, `DeepHashStream`,
`DeepHashMixed`). `H384` is the external SHA-384; Go's incremental
`sha512.New384()` hasher fed by `io.Copy` is, by the hash API contract,
`H384` of the concatenation of everything written, and a reader is
modelled by the byte sequence it yields. -/

/-- Byte values of the ASCII decimal rendering `fmt.Sprint(n)` of a
non-negative integer. -/
def decimalDigits (n : Nat) : List Nat :=
  (Nat.repr n).toList.map Char.toNat

/-- `append([]byte("blob"), []byte(fmt.Sprint(n))...)`. -/
def blobTag (n : Nat) : List Nat :=
  [98, 108, 111, 98] ++ decimalDigits n

/-- `append([]byte("list"), []byte(fmt.Sprint(n))...)`. -/
def listTag (n : Nat) : List Nat :=
  [108, 105, 115, 116] ++ decimalDigits n

/-- `crypto.DeepHash` on a `[]byte` value (the blob branch). -/
def deepHashBlob (H384 : List Nat → List Nat) (b : List Nat) : List Nat :=
  H384 (H384 (blobTag b.length) ++ H384 b)

/-- `crypto.deepHashChunk`: left fold of `acc = H384(acc ‖ DeepHash(elem))`
over the remaining elements, each element here being a `[]byte` blob. -/
def deepHashChunk (H384 : List Nat → List Nat) : List (List Nat) → List Nat → List Nat
  | [], acc => acc
  | b :: rest, acc => deepHashChunk H384 rest (H384 (acc ++ deepHashBlob H384 b))

/-- `crypto.DeepHash` on a `[][]byte` value (the list branch), the shape
used for data-item signing. -/
def DeepHashList (H384 : List Nat → List Nat) (blobs : List (List Nat)) : List Nat :=
  deepHashChunk H384 blobs (H384 (listTag blobs.length))

/-- `crypto.DeepHashStream`: the blob tag from the declared `dataSize`
and the streamed bytes hashed incrementally. -/
def DeepHashStream (H384 : List Nat → List Nat) (streamBytes : List Nat)
    (dataSize : Nat) : List Nat :=
  H384 (H384 (blobTag dataSize) ++ H384 streamBytes)

/-- `crypto.DeepHashMixed`: in-memory blobs folded as in `DeepHash`,
then the streamed element folded last via `DeepHashStream`. -/
def DeepHashMixed (H384 : List Nat → List Nat) (chunks : List (List Nat))
    (streamBytes : List Nat) (streamSize : Nat) : List Nat :=
  H384 ((chunks.foldl (fun acc chunk => H384 (acc ++ deepHashBlob H384 chunk))
      (H384 (listTag (chunks.length + 1)))) ++
    DeepHashStream H384 streamBytes streamSize)

theorem deepHashChunk_eq_foldl (H384 : List Nat → List Nat) :
    ∀ (xs : List (List Nat)) (acc : List Nat),
      deepHashChunk H384 xs acc =
        xs.foldl (fun acc b => H384 (acc ++ deepHashBlob H384 b)) acc := by
  intro xs
  induction xs with
  | nil => intro acc; rfl
  | cons b rest ih =>
    intro acc
    rw [deepHashChunk, ih, List.foldl_cons]

theorem deepHashChunk_append_singleton (H384 : List Nat → List Nat) :
    ∀ (xs : List (List Nat)) (acc b : List Nat),
      deepHashChunk H384 (xs ++ [b]) acc =
        H384 (deepHashChunk H384 xs acc ++ deepHashBlob H384 b) := by
  intro xs
  induction xs with
  | nil => intro acc b; rfl
  | cons x rest ih =>
    intro acc b
    rw [List.cons_append, deepHashChunk, ih, deepHashChunk]

/-- The claim C5: for in-memory blobs followed by one streamed element
whose declared size equals its actual byte count, the streaming
`DeepHashMixed` equals the in-memory `DeepHash` of the same blobs with
the streamed bytes appended as an ordinary blob. -/
theorem DeepHashMixed_eq_DeepHashList (H384 : List Nat → List Nat)
    (chunks : List (List Nat)) (streamBytes : List Nat) (streamSize : Nat)
    (hsize : streamSize = streamBytes.length) :
    DeepHashMixed H384 chunks streamBytes streamSize =
      DeepHashList H384 (chunks ++ [streamBytes]) := by
  subst hsize
  rw [DeepHashMixed, DeepHashList]
  rw [show (chunks ++ [streamBytes]).length = chunks.length + 1 by
    rw [List.length_append, List.length_singleton]]
  rw [deepHashChunk_append_singleton]
  rw [deepHashChunk_eq_foldl]
  rfl

/-- Witness for C5 on empty blob list and empty stream. -/
theorem DeepHashMixed_eq_DeepHashList_witness :
    DeepHashMixed H0 [] [] 0 = DeepHashList H0 ([] ++ [[]]) :=
  DeepHashMixed_eq_DeepHashList H0 [] [] 0 rfl

/-! ## Data item codec (`data_item.Decode` / `data_item.Sign`,
`tag.Deserialize`). Byte strings stand for the Go values: a base64url
string field is modelled by its decoded bytes (the encoding is a
bijection), SHA-256 and the avro tag codec are parameters. Go panics
(index or slice out of range) are `GoErr.panic`. -/

/-- A tag, by the raw bytes of its name and value. -/
structure Tag where
  name : List Nat
  value : List Nat
deriving DecidableEq

/-- The decoded `DataItem` fields, each as raw bytes. -/
structure DataItemRec where
  id : List Nat
  signatureType : Nat
  signature : List Nat
  owner : List Nat
  target : List Nat
  anchor : List Nat
  tags : List Tag
  data : List Nat
  raw : List Nat
deriving DecidableEq

/-- Go's `if err != nil { return err }` sequencing on `Except`. -/
def exBind {α β : Type} (x : Except GoErr α) (f : α → Except GoErr β) :
    Except GoErr β :=
  match x with
  | .error e => .error e
  | .ok a => f a

theorem exBind_ok {α β : Type} (a : α) (f : α → Except GoErr β) :
    exBind (Except.ok a) f = f a := rfl

theorem exBind_error {α β : Type} (e : GoErr) (f : α → Except GoErr β) :
    exBind (Except.error e) f = .error e := rfl

/-- Go slice expression `l[lo:hi]`: panics unless `lo ≤ hi ≤ len(l)`. -/
def goSlice (l : List Nat) (lo hi : Nat) : Except GoErr (List Nat) :=
  if lo ≤ hi ∧ hi ≤ l.length then .ok ((l.drop lo).take (hi - lo))
  else .error .panic

/-- Go index expression `l[i]`: panics when out of range. -/
def goIndex (l : List Nat) (i : Nat) : Except GoErr Nat :=
  match l[i]? with
  | some b => .ok b
  | none => .error .panic

/-- Go slice expression `l[lo:]`: panics unless `lo ≤ len(l)`. -/
def goSliceFrom (l : List Nat) (lo : Nat) : Except GoErr (List Nat) :=
  if lo ≤ l.length then .ok (l.drop lo) else .error .panic

/-- `binary.LittleEndian.Uint16` of the first two bytes of a buffer
(all call sites pass buffers of length ≥ 2). -/
def readLE16 (l : List Nat) : Nat := l.headI + 256 * l.tail.headI

/-- The `SignatureConfig` table: signature length and public key length
for the registered signature types 1–4. -/
def SignatureConfig (t : Nat) : Option (Nat × Nat) :=
  if t = 1 then some (512, 512)
  else if t = 2 then some (64, 32)
  else if t = 3 then some (65, 65)
  else if t = 4 then some (64, 32)
  else none

/-- `getSignatureMetadata(data)`: the type from the first two bytes
little-endian, then the table lookup; unknown types are an error. -/
def getSignatureMetadata (data : List Nat) : Except GoErr (Nat × Nat × Nat) :=
  match SignatureConfig (readLE16 data) with
  | none => .error (.err ("unsupported signature type:" ++ Nat.repr (readLE16 data)))
  | some (sl, pl) => .ok (readLE16 data, sl, pl)

/-- `getTarget(data, position)`: a flag byte, then 32 bytes of target
when the flag is 1. -/
def getTarget (raw : List Nat) (position : Nat) : Except GoErr (List Nat × Nat) :=
  exBind (goIndex raw position) (fun flag =>
    if flag = 1 then
      exBind (goSlice raw (position + 1) (position + 1 + 32)) (fun t =>
        .ok (t, position + 32 + 1))
    else .ok ([], position + 1))

/-- `getAnchor(data, position)`: same layout as the target field. -/
def getAnchor (raw : List Nat) (position : Nat) : Except GoErr (List Nat × Nat) :=
  exBind (goIndex raw position) (fun flag =>
    if flag = 1 then
      exBind (goSlice raw (position + 1) (position + 1 + 32)) (fun a =>
        .ok (a, position + 32 + 1))
    else .ok ([], position + 1))

/-- `tag.Deserialize(data, startAt)`: one count byte, an 8-byte field
whose first two bytes hold the avro byte length little-endian, at most
127 tags, then the avro block. -/
def tagDeserialize (fromAvro : List Nat → Except String (List Tag))
    (data : List Nat) (startAt : Nat) : Except GoErr (List Tag × Nat) :=
  exBind (goIndex data startAt) (fun numberOfTags =>
  exBind (goSlice data (startAt + 8) (startAt + 8 + 8)) (fun nb =>
    if numberOfTags > 127 then
      .error (.err "invalid data item - max tags 127")
    else if numberOfTags > 0 ∧ readLE16 nb > 0 then
      exBind (goSlice data (startAt + 8 + 8) (startAt + 8 + 8 + readLE16 nb))
        (fun bytesData =>
          match fromAvro bytesData with
          | .error e => .error (.err e)
          | .ok tags => .ok (tags, startAt + 8 + 8 + readLE16 nb))
    else .ok ([], startAt + 8 + 8)))

/-- `data_item.Decode`. -/
def DataItem.Decode (H : List Nat → List Nat)
    (fromAvro : List Nat → Except String (List Tag))
    (raw : List Nat) : Except GoErr DataItemRec :=
  if raw.length < 2 then .error (.err "binary too small")
  else
    exBind (getSignatureMetadata (raw.take 2)) (fun meta =>
    exBind (goSlice raw 2 (meta.2.1 + 2)) (fun signature =>
    exBind (goSlice raw (meta.2.1 + 2) (meta.2.1 + 2 + meta.2.2)) (fun owner =>
    exBind (getTarget raw (meta.2.1 + 2 + meta.2.2)) (fun tp =>
    exBind (getAnchor raw tp.2) (fun ap =>
    exBind (tagDeserialize fromAvro raw ap.2) (fun tgp =>
    exBind (goSliceFrom raw tgp.2) (fun dataBytes =>
    .ok { id := H signature, signatureType := meta.1, signature := signature,
          owner := owner, target := tp.1, anchor := ap.1,
          tags := tgp.1, data := dataBytes, raw := raw })))))))

/-- The low 8 bytes written by `binary.LittleEndian.PutUint16` into an
8-byte zero buffer. -/
def u16le8 (n : Nat) : List Nat :=
  [n % 256, n / 256 % 256, 0, 0, 0, 0, 0, 0]

/-- `tag.Serialize`: the avro bytes of a non-empty tag list, else nil. -/
def serializeTags (toAvro : List Tag → List Nat) (tags : List Tag) : List Nat :=
  if tags.length > 0 then toAvro tags else []

/-- The raw byte string assembled by `data_item.Sign` (signature type 1,
Arweave): `[1,0] ‖ sig ‖ owner ‖ targetFlag ‖ target ‖ anchorFlag ‖
anchor ‖ numberOfTags(8B) ‖ tagsLength(8B) ‖ avroTags ‖ data`,
parenthesised to the right (Go builds it by successive `append`). -/
def signRaw (toAvro : List Tag → List Nat) (sig owner target anchor : List Nat)
    (tags : List Tag) (dataBytes : List Nat) : List Nat :=
  [1, 0] ++ (sig ++ (owner ++
    ((if target = [] then [0] else [1]) ++ (target ++
      ((if anchor = [] then [0] else [1]) ++ (anchor ++
        (u16le8 tags.length ++ (u16le8 (serializeTags toAvro tags).length ++
          (serializeTags toAvro tags ++ dataBytes)))))))))

theorem goSlice_of_parts {l p m q : List Nat} {lo hi : Nat}
    (hsplit : l = p ++ m ++ q) (hlo : lo = p.length)
    (hhi : hi = p.length + m.length) :
    goSlice l lo hi = .ok m := by
  subst hsplit hlo hhi
  unfold goSlice
  rw [if_pos]
  · rw [List.append_assoc, List.drop_left, Nat.add_sub_cancel_left, List.take_left]
  · constructor
    · omega
    · rw [List.append_assoc, List.length_append, List.length_append]
      omega

theorem goSliceFrom_of_parts {l p q : List Nat} {lo : Nat}
    (hsplit : l = p ++ q) (hlo : lo = p.length) :
    goSliceFrom l lo = .ok q := by
  subst hsplit hlo
  unfold goSliceFrom
  rw [if_pos, List.drop_left]
  rw [List.length_append]
  omega

theorem goIndex_of_parts {l p q : List Nat} {x : Nat} {i : Nat}
    (hsplit : l = p ++ x :: q) (hi : i = p.length) :
    goIndex l i = .ok x := by
  subst hsplit hi
  unfold goIndex
  rw [List.getElem?_append_right (Nat.le_refl _), Nat.sub_self,
    List.getElem?_cons_zero]

theorem getTarget_encoded (raw pre target post : List Nat)
    (htar : target.length = 0 ∨ target.length = 32)
    (hsplit : raw = pre ++ ((if target = [] then [0] else [1]) ++ (target ++ post)))
    (pos : Nat) (hpos : pos = pre.length) :
    getTarget raw pos = .ok (target, pos + target.length + 1) := by
  rcases htar with h0 | h32
  · have ht : target = [] := List.eq_nil_of_length_eq_zero h0
    subst ht
    rw [getTarget, goIndex_of_parts (by rw [hsplit]; rfl) hpos, exBind_ok]
    rw [if_neg (by decide)]
    rfl
  · have hne : target ≠ [] := by
      intro h
      rw [h] at h32
      exact absurd h32 (by decide)
    rw [getTarget, goIndex_of_parts (x := 1) (by rw [hsplit, if_neg hne]; rfl) hpos,
      exBind_ok]
    rw [if_pos rfl]
    rw [goSlice_of_parts (p := pre ++ [1]) (m := target) (q := post)
      (by rw [hsplit, if_neg hne]; simp [List.append_assoc])
      (by rw [List.length_append, hpos, List.length_singleton])
      (by rw [List.length_append, hpos, h32, List.length_singleton]), exBind_ok]
    rw [h32]

theorem getAnchor_encoded (raw pre anchor post : List Nat)
    (hanc : anchor.length = 0 ∨ anchor.length = 32)
    (hsplit : raw = pre ++ ((if anchor = [] then [0] else [1]) ++ (anchor ++ post)))
    (pos : Nat) (hpos : pos = pre.length) :
    getAnchor raw pos = .ok (anchor, pos + anchor.length + 1) := by
  rcases hanc with h0 | h32
  · have ht : anchor = [] := List.eq_nil_of_length_eq_zero h0
    subst ht
    rw [getAnchor, goIndex_of_parts (by rw [hsplit]; rfl) hpos, exBind_ok]
    rw [if_neg (by decide)]
    rfl
  · have hne : anchor ≠ [] := by
      intro h
      rw [h] at h32
      exact absurd h32 (by decide)
    rw [getAnchor, goIndex_of_parts (x := 1) (by rw [hsplit, if_neg hne]; rfl) hpos,
      exBind_ok]
    rw [if_pos rfl]
    rw [goSlice_of_parts (p := pre ++ [1]) (m := anchor) (q := post)
      (by rw [hsplit, if_neg hne]; simp [List.append_assoc])
      (by rw [List.length_append, hpos, List.length_singleton])
      (by rw [List.length_append, hpos, h32, List.length_singleton]), exBind_ok]
    rw [h32]

theorem u16le8_length (n : Nat) : (u16le8 n).length = 8 := rfl

theorem tagDeserialize_encoded (fromAvro : List Nat → Except String (List Tag))
    (toAvro : List Tag → List Nat) (raw pre post : List Nat) (tags : List Tag)
    (htags : tags.length ≤ 127)
    (hser : tags ≠ [] → fromAvro (toAvro tags) = .ok tags ∧
      0 < (toAvro tags).length ∧ (toAvro tags).length ≤ 65535)
    (hsplit : raw = pre ++ (u16le8 tags.length ++
      (u16le8 (serializeTags toAvro tags).length ++ (serializeTags toAvro tags ++ post))))
    (pos : Nat) (hpos : pos = pre.length) :
    tagDeserialize fromAvro raw pos =
      .ok (tags, pos + 8 + 8 + (serializeTags toAvro tags).length) := by
  by_cases hnil : tags = []
  · subst hnil
    have hs2 : raw =
        pre ++ ([0, 0, 0, 0, 0, 0, 0, 0] ++ ([0, 0, 0, 0, 0, 0, 0, 0] ++ post)) := by
      rw [hsplit]; simp [u16le8, serializeTags]
    rw [tagDeserialize,
      goIndex_of_parts (x := 0)
        (q := [0, 0, 0, 0, 0, 0, 0] ++ ([0, 0, 0, 0, 0, 0, 0, 0] ++ post))
        (by rw [hs2]; rfl) hpos,
      exBind_ok]
    rw [goSlice_of_parts (p := pre ++ [0, 0, 0, 0, 0, 0, 0, 0])
        (m := [0, 0, 0, 0, 0, 0, 0, 0]) (q := post)
        (by rw [hs2]; simp [List.append_assoc])
        (by rw [List.length_append, hpos]; rfl)
        (by rw [List.length_append, hpos]; rfl),
      exBind_ok]
    rw [if_neg (by decide), if_neg (by decide)]
    rfl
  · obtain ⟨hfa, hlen2, hle⟩ := hser hnil
    have hlen : 0 < tags.length := List.length_pos.mpr hnil
    have hserl : serializeTags toAvro tags = toAvro tags := by
      rw [serializeTags, if_pos hlen]
    have hmod : tags.length % 256 = tags.length := Nat.mod_eq_of_lt (by omega)
    rw [tagDeserialize,
      goIndex_of_parts (x := tags.length % 256)
        (q := [tags.length / 256 % 256, 0, 0, 0, 0, 0, 0] ++
          (u16le8 (serializeTags toAvro tags).length ++
            (serializeTags toAvro tags ++ post)))
        (by rw [hsplit]; rfl) hpos,
      exBind_ok]
    rw [hmod]
    rw [goSlice_of_parts (p := pre ++ u16le8 tags.length)
        (m := u16le8 (serializeTags toAvro tags).length)
        (q := serializeTags toAvro tags ++ post)
        (by rw [hsplit]; simp [List.append_assoc])
        (by rw [List.length_append, hpos, u16le8_length])
        (by rw [List.length_append, hpos, u16le8_length, u16le8_length]),
      exBind_ok]
    rw [if_neg (by omega)]
    have hL : (serializeTags toAvro tags).length ≤ 65535 := by
      rw [hserl]; exact hle
    have hle16 : readLE16 (u16le8 (serializeTags toAvro tags).length) =
        (serializeTags toAvro tags).length := by
      simp only [readLE16, u16le8, List.headI_cons, List.tail_cons]
      omega
    rw [hle16, if_pos ⟨hlen, by rw [hserl]; exact hlen2⟩]
    rw [goSlice_of_parts
        (p := pre ++ u16le8 tags.length ++ u16le8 (serializeTags toAvro tags).length)
        (m := serializeTags toAvro tags) (q := post)
        (by rw [hsplit]; simp [List.append_assoc])
        (by rw [List.length_append, List.length_append, hpos,
          u16le8_length, u16le8_length])
        (by rw [List.length_append, List.length_append, hpos,
          u16le8_length, u16le8_length]),
      exBind_ok]
    have hfa2 : fromAvro (serializeTags toAvro tags) = .ok tags := by
      rw [hserl]; exact hfa
    rw [hfa2]

/-- The claim C6: decoding the raw encoding produced by `Sign` (for an
Arweave-type item: 512-byte signature and owner, target and anchor empty
or 32 bytes, at most 127 tags, avro codec faithful on the tag list)
reproduces the id `SHA256(signature)` and the signature, owner, target,
anchor, tags and data of the signed item. -/
theorem dataItem_sign_decode_roundtrip (H : List Nat → List Nat)
    (toAvro : List Tag → List Nat) (fromAvro : List Nat → Except String (List Tag))
    (sig owner target anchor : List Nat) (tags : List Tag) (dataBytes : List Nat)
    (hsig : sig.length = 512) (hown : owner.length = 512)
    (htar : target.length = 0 ∨ target.length = 32)
    (hanc : anchor.length = 0 ∨ anchor.length = 32)
    (htags : tags.length ≤ 127)
    (hser : tags ≠ [] → fromAvro (toAvro tags) = .ok tags ∧
      0 < (toAvro tags).length ∧ (toAvro tags).length ≤ 65535) :
    DataItem.Decode H fromAvro (signRaw toAvro sig owner target anchor tags dataBytes) =
      .ok { id := H sig, signatureType := 1, signature := sig, owner := owner,
            target := target, anchor := anchor, tags := tags, data := dataBytes,
            raw := signRaw toAvro sig owner target anchor tags dataBytes } := by
  have hft : (if target = [] then ([0] : List Nat) else [1]).length = 1 := by
    by_cases h : target = [] <;> simp [h]
  have hfA : (if anchor = [] then ([0] : List Nat) else [1]).length = 1 := by
    by_cases h : anchor = [] <;> simp [h]
  have hlen2 : ¬ ((signRaw toAvro sig owner target anchor tags dataBytes).length < 2) := by
    simp only [signRaw, List.length_append, List.length_cons, List.length_nil]
    omega
  have hmeta : getSignatureMetadata
      ((signRaw toAvro sig owner target anchor tags dataBytes).take 2) =
        .ok (1, 512, 512) := by
    rw [signRaw]; rfl
  rw [DataItem.Decode, if_neg hlen2, hmeta, exBind_ok]
  dsimp only
  rw [goSlice_of_parts (p := [1, 0]) (m := sig)
      (q := owner ++ ((if target = [] then [0] else [1]) ++ (target ++
        ((if anchor = [] then [0] else [1]) ++ (anchor ++
          (u16le8 tags.length ++ (u16le8 (serializeTags toAvro tags).length ++
            (serializeTags toAvro tags ++ dataBytes))))))))
      (by rw [signRaw]; simp [List.append_assoc]) (by simp) (by simp [hsig]),
    exBind_ok]
  rw [goSlice_of_parts (p := [1, 0] ++ sig) (m := owner)
      (q := (if target = [] then [0] else [1]) ++ (target ++
        ((if anchor = [] then [0] else [1]) ++ (anchor ++
          (u16le8 tags.length ++ (u16le8 (serializeTags toAvro tags).length ++
            (serializeTags toAvro tags ++ dataBytes)))))))
      (by rw [signRaw]; simp [List.append_assoc]) (by simp [hsig])
      (by simp [hsig, hown]),
    exBind_ok]
  rw [getTarget_encoded (signRaw toAvro sig owner target anchor tags dataBytes)
      ([1, 0] ++ sig ++ owner) target
      ((if anchor = [] then [0] else [1]) ++ (anchor ++
        (u16le8 tags.length ++ (u16le8 (serializeTags toAvro tags).length ++
          (serializeTags toAvro tags ++ dataBytes)))))
      htar (by rw [signRaw]; simp [List.append_assoc]) (512 + 2 + 512)
      (by simp [hsig, hown]),
    exBind_ok]
  dsimp only
  rw [getAnchor_encoded (signRaw toAvro sig owner target anchor tags dataBytes)
      ([1, 0] ++ sig ++ owner ++ (if target = [] then [0] else [1]) ++ target) anchor
      (u16le8 tags.length ++ (u16le8 (serializeTags toAvro tags).length ++
        (serializeTags toAvro tags ++ dataBytes)))
      hanc (by rw [signRaw]; simp [List.append_assoc])
      (512 + 2 + 512 + target.length + 1)
      (by simp only [List.length_append, List.length_cons, List.length_nil,
        hsig, hown, hft]; omega),
    exBind_ok]
  dsimp only
  rw [tagDeserialize_encoded fromAvro toAvro
      (signRaw toAvro sig owner target anchor tags dataBytes)
      ([1, 0] ++ sig ++ owner ++ (if target = [] then [0] else [1]) ++ target ++
        (if anchor = [] then [0] else [1]) ++ anchor)
      dataBytes tags htags hser (by rw [signRaw]; simp [List.append_assoc])
      (512 + 2 + 512 + target.length + 1 + anchor.length + 1)
      (by simp only [List.length_append, List.length_cons, List.length_nil,
        hsig, hown, hft, hfA]; omega),
    exBind_ok]
  dsimp only
  rw [goSliceFrom_of_parts
      (p := [1, 0] ++ sig ++ owner ++ (if target = [] then [0] else [1]) ++ target ++
        (if anchor = [] then [0] else [1]) ++ anchor ++ u16le8 tags.length ++
        u16le8 (serializeTags toAvro tags).length ++ serializeTags toAvro tags)
      (q := dataBytes)
      (by rw [signRaw]; simp [List.append_assoc])
      (by simp only [List.length_append, List.length_cons, List.length_nil,
        hsig, hown, hft, hfA, u16le8_length]; omega),
    exBind_ok]

/-- Witness for C6, scenario A: empty payload, no target, no anchor,
no tags. -/
theorem dataItem_sign_decode_roundtrip_witness :
    DataItem.Decode H0 (fun _ => Except.ok ([] : List Tag))
      (signRaw (fun _ => []) (List.replicate 512 0) (List.replicate 512 1) [] [] [] []) =
      .ok { id := H0 (List.replicate 512 0), signatureType := 1,
            signature := List.replicate 512 0, owner := List.replicate 512 1,
            target := [], anchor := [], tags := [], data := [],
            raw := signRaw (fun _ => []) (List.replicate 512 0)
              (List.replicate 512 1) [] [] [] [] } :=
  dataItem_sign_decode_roundtrip H0 (fun _ => []) (fun _ => Except.ok ([] : List Tag))
    (List.replicate 512 0) (List.replicate 512 1) [] [] [] []
    (List.length_replicate 512 0) (List.length_replicate 512 1)
    (Or.inl rfl) (Or.inl rfl) (by decide)
    (fun h => absurd rfl h)

/-- The claim C7: a buffer of length at least 2 whose first two bytes
little-endian are not a registered signature type makes `Decode` return
the unsupported-signature-type error. -/
theorem dataItem_decode_unsupported_type (H : List Nat → List Nat)
    (fromAvro : List Nat → Except String (List Tag))
    (b0 b1 : Nat) (rest : List Nat)
    (hst : b0 + 256 * b1 ≠ 1 ∧ b0 + 256 * b1 ≠ 2 ∧
      b0 + 256 * b1 ≠ 3 ∧ b0 + 256 * b1 ≠ 4) :
    DataItem.Decode H fromAvro (b0 :: b1 :: rest) =
      .error (.err ("unsupported signature type:" ++ Nat.repr (b0 + 256 * b1))) := by
  rw [DataItem.Decode, if_neg (by simp only [List.length_cons]; omega)]
  have hr : readLE16 ((b0 :: b1 :: rest).take 2) = b0 + 256 * b1 := rfl
  have hcfg : SignatureConfig (b0 + 256 * b1) = none := by
    rw [SignatureConfig, if_neg hst.1, if_neg hst.2.1, if_neg hst.2.2.1,
      if_neg hst.2.2.2]
  have hmeta : getSignatureMetadata ((b0 :: b1 :: rest).take 2) =
      .error (.err ("unsupported signature type:" ++ Nat.repr (b0 + 256 * b1))) := by
    rw [getSignatureMetadata, hr, hcfg]
  rw [hmeta, exBind_error]

/-- Witness for C7 at signature type 99. -/
theorem dataItem_decode_unsupported_type_witness :
    DataItem.Decode H0 (fun _ => Except.ok ([] : List Tag)) [99, 0] =
      .error (.err ("unsupported signature type:" ++ Nat.repr (99 + 256 * 0))) :=
  dataItem_decode_unsupported_type H0 (fun _ => Except.ok ([] : List Tag)) 99 0 []
    (by decide)

/-! ## Bundle codec (`bundle.Decode`, `decodeBundleHeader`,
`byteArrayToLong`). Sizes are Go `int` (wrapping 64-bit), so slice
bounds are `Int` here; `make([]DataItem, N)` with negative `N` panics. -/

/-- `byteArrayToLong`: little-endian fold, from the last byte down to
the first, wrapping at 64 bits like Go `int`. -/
def byteArrayToLong (b : List Nat) : Int :=
  b.foldr (fun byt value => wrap64 (value * 256 + (byt : Int))) 0

structure BundleHeader where
  id : Int
  size : Int
deriving DecidableEq

/-- The fields of a decoded `Bundle` (`Decode` sets only `Items` and
`Raw`). -/
structure BundleRec where
  items : List DataItemRec
  raw : List Nat
deriving DecidableEq

/-- Go slice expression `l[lo:hi]` with `int` indices: panics unless
`0 ≤ lo ≤ hi ≤ len(l)`. -/
def goSliceInt (l : List Nat) (lo hi : Int) : Except GoErr (List Nat) :=
  if 0 ≤ lo ∧ lo ≤ hi ∧ hi ≤ (l.length : Int) then
    .ok ((l.drop lo.toNat).take (hi - lo).toNat)
  else .error .panic

/-- The header-reading loop of `decodeBundleHeader`: `k` iterations
left, reading a 32-byte size then a 32-byte id at offset `i`. -/
def decodeHeadersLoop (data : List Nat) : Nat → Nat → Except GoErr (List BundleHeader)
  | _, 0 => .ok []
  | i, k + 1 =>
    exBind (goSlice data i (i + 32)) (fun sizeBytes =>
    exBind (goSlice data (i + 32) (i + 64)) (fun idBytes =>
    exBind (decodeHeadersLoop data (i + 64) k) (fun rest =>
      .ok (⟨byteArrayToLong idBytes, byteArrayToLong sizeBytes⟩ :: rest))))

/-- `decodeBundleHeader`: `N` from the first 32 bytes, then `N` header
records of 64 bytes each starting at offset 32 (none when `N ≤ 0`). -/
def decodeBundleHeader (data : List Nat) : Except GoErr (List BundleHeader × Int) :=
  exBind (goSlice data 0 32) (fun firstBytes =>
  exBind (decodeHeadersLoop data 32 (byteArrayToLong firstBytes).toNat) (fun headers =>
    .ok (headers, byteArrayToLong firstBytes)))

/-- The item-decoding loop of `bundle.Decode`: slice
`data[start : start+size]` per header, decode it as a data item. -/
def decodeItemsLoop (H : List Nat → List Nat)
    (fromAvro : List Nat → Except String (List Tag))
    (data : List Nat) : Int → List BundleHeader → Except GoErr (List DataItemRec)
  | _, [] => .ok []
  | start, h :: rest =>
    exBind (goSliceInt data start (start + h.size)) (fun slice =>
    exBind (DataItem.Decode H fromAvro slice) (fun item =>
    exBind (decodeItemsLoop H fromAvro data (start + h.size) rest) (fun others =>
      .ok (item :: others))))

/-- `bundle.Decode`. -/
def Bundle.Decode (H : List Nat → List Nat)
    (fromAvro : List Nat → Except String (List Tag))
    (data : List Nat) : Except GoErr BundleRec :=
  if data.length < 32 then .error (.err "binary length must more than 32")
  else
    exBind (decodeBundleHeader data) (fun hn =>
      if hn.2 < 0 then .error .panic
      else
        exBind (decodeItemsLoop H fromAvro data (32 + 64 * hn.2) hn.1) (fun items =>
          .ok { items := items, raw := data }))

/-- Total declared size of a header list: where `bundleStart` stands
after consuming these headers' slices. -/
def sumSizes : List BundleHeader → Int
  | [] => 0
  | h :: t => h.size + sumSizes t

theorem goSlice_mono (l junk : List Nat) (lo hi : Nat) (r : List Nat)
    (h : goSlice l lo hi = .ok r) : goSlice (l ++ junk) lo hi = .ok r := by
  unfold goSlice at h ⊢
  by_cases hc : lo ≤ hi ∧ hi ≤ l.length
  · rw [if_pos hc] at h
    rw [if_pos ⟨hc.1, by rw [List.length_append]; omega⟩]
    rw [List.drop_append_of_le_length (by omega),
      List.take_append_of_le_length (by rw [List.length_drop]; omega)]
    exact h
  · rw [if_neg hc] at h
    exact Except.noConfusion h

theorem goSliceInt_mono (l junk : List Nat) (lo hi : Int) (r : List Nat)
    (h : goSliceInt l lo hi = .ok r) : goSliceInt (l ++ junk) lo hi = .ok r := by
  unfold goSliceInt at h ⊢
  by_cases hc : 0 ≤ lo ∧ lo ≤ hi ∧ hi ≤ (l.length : Int)
  · rw [if_pos hc] at h
    rw [if_pos ⟨hc.1, hc.2.1, by rw [List.length_append]; push_cast; omega⟩]
    rw [List.drop_append_of_le_length (by omega),
      List.take_append_of_le_length (by rw [List.length_drop]; omega)]
    exact h
  · rw [if_neg hc] at h
    exact Except.noConfusion h

theorem decodeHeadersLoop_mono (data junk : List Nat) :
    ∀ (k i : Nat) (hs : List BundleHeader),
      decodeHeadersLoop data i k = .ok hs →
      decodeHeadersLoop (data ++ junk) i k = .ok hs := by
  intro k
  induction k with
  | zero => intro i hs h; exact h
  | succ k ih =>
    intro i hs h
    rw [decodeHeadersLoop] at h ⊢
    cases h1 : goSlice data i (i + 32) with
    | error e => rw [h1, exBind_error] at h; exact Except.noConfusion h
    | ok sizeBytes =>
      rw [h1, exBind_ok] at h
      rw [goSlice_mono data junk _ _ _ h1, exBind_ok]
      cases h2 : goSlice data (i + 32) (i + 64) with
      | error e => rw [h2, exBind_error] at h; exact Except.noConfusion h
      | ok idBytes =>
        rw [h2, exBind_ok] at h
        rw [goSlice_mono data junk _ _ _ h2, exBind_ok]
        cases h3 : decodeHeadersLoop data (i + 64) k with
        | error e => rw [h3, exBind_error] at h; exact Except.noConfusion h
        | ok rest =>
          rw [h3, exBind_ok] at h
          rw [ih _ _ h3, exBind_ok]
          exact h

theorem decodeBundleHeader_mono (data junk : List Nat)
    (headers : List BundleHeader) (n : Int)
    (h : decodeBundleHeader data = .ok (headers, n)) :
    decodeBundleHeader (data ++ junk) = .ok (headers, n) := by
  rw [decodeBundleHeader] at h ⊢
  cases h1 : goSlice data 0 32 with
  | error e => rw [h1, exBind_error] at h; exact Except.noConfusion h
  | ok firstBytes =>
    rw [h1, exBind_ok] at h
    rw [goSlice_mono data junk _ _ _ h1, exBind_ok]
    cases h2 : decodeHeadersLoop data 32 (byteArrayToLong firstBytes).toNat with
    | error e => rw [h2, exBind_error] at h; exact Except.noConfusion h
    | ok headers2 =>
      rw [h2, exBind_ok] at h
      rw [decodeHeadersLoop_mono data junk _ _ _ h2, exBind_ok]
      exact h

theorem decodeItemsLoop_mono (H : List Nat → List Nat)
    (fromAvro : List Nat → Except String (List Tag)) (data junk : List Nat) :
    ∀ (hs : List BundleHeader) (start : Int) (items : List DataItemRec),
      decodeItemsLoop H fromAvro data start hs = .ok items →
      decodeItemsLoop H fromAvro (data ++ junk) start hs = .ok items := by
  intro hs
  induction hs with
  | nil => intro start items h; exact h
  | cons hd rest ih =>
    intro start items h
    rw [decodeItemsLoop] at h ⊢
    cases h1 : goSliceInt data start (start + hd.size) with
    | error e => rw [h1, exBind_error] at h; exact Except.noConfusion h
    | ok slice =>
      rw [h1, exBind_ok] at h
      rw [goSliceInt_mono data junk _ _ _ h1, exBind_ok]
      cases h2 : DataItem.Decode H fromAvro slice with
      | error e => rw [h2, exBind_error] at h; exact Except.noConfusion h
      | ok item =>
        rw [h2, exBind_ok] at h
        rw [exBind_ok]
        cases h3 : decodeItemsLoop H fromAvro data (start + hd.size) rest with
        | error e => rw [h3, exBind_error] at h; exact Except.noConfusion h
        | ok others =>
          rw [h3, exBind_ok] at h
          rw [ih _ _ h3, exBind_ok]
          exact h

set_option maxRecDepth 4000 in
/-- Counterexample to C9 as stated: the 33-byte buffer of 32 zero bytes
(declaring zero items) followed by one trailing byte decodes
successfully — `Decode` never checks that the declared slices exhaust
the buffer, so no malformed-bundle error is reported. -/
theorem bundleDecode_trailing_junk_accepted :
    Bundle.Decode H0 (fun _ => Except.ok ([] : List Tag))
      (List.replicate 32 0 ++ [7]) =
      .ok { items := [], raw := List.replicate 32 0 ++ [7] } := rfl

theorem bundleDecode_eq_loop (H : List Nat → List Nat)
    (fromAvro : List Nat → Except String (List Tag)) (data : List Nat)
    (headers : List BundleHeader) (n : Int) (hlen : 32 ≤ data.length)
    (hn : 0 ≤ n) (hh : decodeBundleHeader data = .ok (headers, n)) :
    Bundle.Decode H fromAvro data =
      exBind (decodeItemsLoop H fromAvro data (32 + 64 * n) headers)
        (fun items => .ok { items := items, raw := data }) := by
  rw [Bundle.Decode, if_neg (by omega), hh, exBind_ok]
  dsimp only
  rw [if_neg (by omega)]

theorem decodeItemsLoop_append (H : List Nat → List Nat)
    (fromAvro : List Nat → Except String (List Tag)) (data : List Nat) :
    ∀ (h1 h2 : List BundleHeader) (s : Int),
      decodeItemsLoop H fromAvro data s (h1 ++ h2) =
        exBind (decodeItemsLoop H fromAvro data s h1) (fun i1 =>
          exBind (decodeItemsLoop H fromAvro data (s + sumSizes h1) h2) (fun i2 =>
            .ok (i1 ++ i2))) := by
  intro h1
  induction h1 with
  | nil =>
    intro h2 s
    rw [List.nil_append]
    rw [show decodeItemsLoop H fromAvro data s [] = .ok [] from rfl, exBind_ok]
    rw [show s + sumSizes [] = s from by rw [sumSizes]; exact Int.add_zero s]
    cases h : decodeItemsLoop H fromAvro data s h2 with
    | error e => rw [exBind_error]
    | ok items => rw [exBind_ok, List.nil_append]
  | cons hd t ih =>
    intro h2 s
    rw [List.cons_append, decodeItemsLoop, decodeItemsLoop]
    cases h1e : goSliceInt data s (s + hd.size) with
    | error e => simp only [exBind_error]
    | ok slice =>
      simp only [exBind_ok]
      cases h2e : DataItem.Decode H fromAvro slice with
      | error e => simp only [exBind_error]
      | ok item =>
        simp only [exBind_ok]
        rw [ih h2 (s + hd.size)]
        cases h3 : decodeItemsLoop H fromAvro data (s + hd.size) t with
        | error e => simp only [exBind_error]
        | ok i1 =>
          simp only [exBind_ok]
          rw [show s + sumSizes (hd :: t) = s + hd.size + sumSizes t from by
            rw [sumSizes]; omega]
          cases h4 : decodeItemsLoop H fromAvro data (s + hd.size + sumSizes t) h2 with
          | error e => simp only [exBind_error]
          | ok i2 => simp only [exBind_ok, List.cons_append]

/-- The C9 amendment: for a buffer of length at least 32 whose item
count (non-negative) and header records decode, `Decode` slices the
remainder sequentially by each header's declared size and decodes each
slice as a data item. A slice that reaches decoding but is not a valid
data item makes `Decode` return exactly that data-item error, and more
generally the first failure of the sequential slicing-and-decoding is
returned unchanged. When every declared slice decodes, `Decode`
succeeds — and it performs no exhaustion check: it succeeds
identically, with the same items, on the buffer extended by arbitrary
trailing bytes, which are silently ignored (only `Raw` differs). -/
theorem bundleDecode_ignores_trailing_bytes (H : List Nat → List Nat)
    (fromAvro : List Nat → Except String (List Tag))
    (data junk : List Nat) (hlen : 32 ≤ data.length)
    (headers : List BundleHeader) (n : Int)
    (hn : 0 ≤ n)
    (hh : decodeBundleHeader data = .ok (headers, n)) :
    (∀ (hs1 : List BundleHeader) (hd : BundleHeader) (hs2 : List BundleHeader)
        (items1 : List DataItemRec) (slice : List Nat) (msg : String),
      headers = hs1 ++ hd :: hs2 →
      decodeItemsLoop H fromAvro data (32 + 64 * n) hs1 = .ok items1 →
      goSliceInt data (32 + 64 * n + sumSizes hs1)
        (32 + 64 * n + sumSizes hs1 + hd.size) = .ok slice →
      DataItem.Decode H fromAvro slice = .error (.err msg) →
      Bundle.Decode H fromAvro data = .error (.err msg)) ∧
    (∀ e, decodeItemsLoop H fromAvro data (32 + 64 * n) headers = .error e →
      Bundle.Decode H fromAvro data = .error e) ∧
    (∀ items, decodeItemsLoop H fromAvro data (32 + 64 * n) headers = .ok items →
      Bundle.Decode H fromAvro data = .ok { items := items, raw := data } ∧
      Bundle.Decode H fromAvro (data ++ junk) =
        .ok { items := items, raw := data ++ junk }) := by
  refine ⟨?_, ?_, ?_⟩
  · intro hs1 hd hs2 items1 slice msg hsplit hpre hsl hdec
    rw [bundleDecode_eq_loop H fromAvro data headers n hlen hn hh, hsplit,
      decodeItemsLoop_append H fromAvro data hs1 (hd :: hs2) (32 + 64 * n),
      hpre]
    simp only [exBind_ok]
    rw [decodeItemsLoop, hsl]
    simp only [exBind_ok]
    rw [hdec]
    simp only [exBind_error]
  · intro e he
    rw [bundleDecode_eq_loop H fromAvro data headers n hlen hn hh, he, exBind_error]
  · intro items hi
    constructor
    · rw [bundleDecode_eq_loop H fromAvro data headers n hlen hn hh, hi, exBind_ok]
    · rw [bundleDecode_eq_loop H fromAvro (data ++ junk) headers n
        (by rw [List.length_append]; omega) hn
        (decodeBundleHeader_mono data junk headers n hh),
        decodeItemsLoop_mono H fromAvro data junk headers _ _ hi, exBind_ok]

set_option maxRecDepth 4000 in
/-- Witness for the C9 amendment at the zero-item bundle with one junk
byte appended. -/
theorem bundleDecode_ignores_trailing_bytes_witness :
    Bundle.Decode H0 (fun _ => Except.ok ([] : List Tag)) (List.replicate 32 0) =
        .ok { items := [], raw := List.replicate 32 0 } ∧
      Bundle.Decode H0 (fun _ => Except.ok ([] : List Tag))
          (List.replicate 32 0 ++ [7]) =
        .ok { items := [], raw := List.replicate 32 0 ++ [7] } :=
  (bundleDecode_ignores_trailing_bytes H0 (fun _ => Except.ok ([] : List Tag))
    (List.replicate 32 0) [7] (by decide) [] 0 (by decide) rfl).2.2 [] rfl

end Goar
